import Mathlib

/-
Verification development for the nadi drainage-network core
(src/network.rs).  The Rust data structures and algorithms are embedded
shallowly:

* `HashMap<String, _>` maps are embedded as functions `String → Option _`
  (insertion is pointwise update, exactly overwrite-on-insert).
* `HashSet<usize>` work sets are embedded as duplicate-free `List Nat`.
  Rust's `set.iter().next()` returns an arbitrary element; the embedding
  resolves this nondeterminism by taking the head of the list (for the
  work sets below, the least remaining index), which is one legal
  behaviour of the source.
* `f32` attribute payloads are embedded as exact integers: the only
  arithmetic the source performs on them is addition and exact
  comparison, and every value occurring in the spec and the claims is a
  small integer, on which `f32` arithmetic is exact.
* Loops are embedded as fuel-indexed recursions returning `Option`;
  `none` models a panic (a failing `unwrap`/out-of-range index) or a
  diverging loop.  Fuel bounds are chosen generously and, where a claim
  needs it, termination within the fuel is proved.
-/

namespace Nadi

/-- Attribute values stored on a node (`enum NodeAttr` in src/network.rs).
The `Value` variant's `f32` payload is modelled as an exact integer
(see the header note). -/
inductive NodeAttr where
  | string : String → NodeAttr
  | number : Nat → NodeAttr
  | vec : List Nat → NodeAttr
  | value : Int → NodeAttr
deriving DecidableEq

/-- The `Display` impl for `NodeAttr`: strings and numbers print plainly,
`Vec` prints Rust-debug style `[a, b]`, `Value` prints its numeral (the
exact `f32` digit rendering is irrelevant to every claim, so the number
is printed with `toString`). -/
def NodeAttr.display : NodeAttr → String
  | .string s => s
  | .number n => toString n
  | .vec v => "[" ++ String.intercalate ", " (v.map toString) ++ "]"
  | .value q => toString q

/-- `NodeAttr::read_number`. -/
def NodeAttr.read_number : NodeAttr → Option Nat
  | .number n => some n
  | _ => none

/-- `NodeAttr::read_value`: `Value` reads as itself, `Number` coerces. -/
def NodeAttr.read_value : NodeAttr → Option Int
  | .value v => some v
  | .number n => some (n : Int)
  | _ => none

/-- `struct Node` (src/network.rs).  `attrs` is the attribute map;
`vars` is `render_ops.variables`, the string mirror of the attributes
used by the template renderer. -/
structure Node where
  index : Nat
  name : String
  inputs : List Nat
  output : Option Nat
  attrs : String → Option NodeAttr
  vars : String → Option String

/-- `Node::set_attr`: insert into both the attribute map and the
template-variable map (the latter holding the display string). -/
def Node.set_attr (nd : Node) (key : String) (v : NodeAttr) : Node :=
  { nd with
    attrs := fun k => if k = key then some v else nd.attrs k,
    vars := fun k => if k = key then some v.display else nd.vars k }

/-- `Node::new`: build the struct with empty maps, then mirror
`name`, `index` and `inputs` into the attribute map. -/
def Node.new (index : Nat) (name : String) (inputs : List Nat)
    (output : Option Nat) : Node :=
  let nd : Node :=
    { index, name, inputs, output, attrs := fun _ => none, vars := fun _ => none }
  ((nd.set_attr "name" (.string name)).set_attr "index"
      (.number index)).set_attr "inputs" (.vec inputs)

/-- `Node::set_inputs`. -/
def Node.set_inputs (nd : Node) (inputs : List Nat) : Node :=
  { nd.set_attr "inputs" (.vec inputs) with inputs := inputs }

/-- `Node::set_output`. -/
def Node.set_output (nd : Node) (output : Nat) : Node :=
  { nd.set_attr "output" (.number output) with output := some output }

/-- `Node::set_index`. -/
def Node.set_index (nd : Node) (index : Nat) : Node :=
  { nd.set_attr "index" (.number index) with index := index }

/-- `Node::load_attrs_from_file`, with the file contents abstracted as
the already-coerced `key = value` pairs (the source coerces each value
to `usize`, then `f32`, then text; an absent or unreadable file is the
empty list). -/
def Node.loadAttrs (nd : Node) (kvs : List (String × NodeAttr)) : Node :=
  kvs.foldl (fun n kv => n.set_attr kv.1 kv.2) nd

/-- `struct Network`: the name-to-index map and the node sequence. -/
structure Network where
  indices : String → Option Nat
  nodes : List Node

/-- Replace node `i`'s attribute `key` (the `self.nodes[n].set_attr(..)`
pattern). Out-of-range indices leave the network unchanged (the source
would have panicked earlier on the index). -/
def Network.setNodeAttr (net : Network) (i : Nat) (key : String) (v : NodeAttr) :
    Network :=
  { net with
    nodes := match net.nodes[i]? with
      | some nd => net.nodes.set i (nd.set_attr key v)
      | none => net.nodes }

/-- Replace node `i`'s inputs list in place (the
`self.nodes[n].inputs.sort_by(..)` mutation site). -/
def Network.setNodeInputs (net : Network) (i : Nat) (inputs : List Nat) :
    Network :=
  { net with
    nodes := match net.nodes[i]? with
      | some nd => net.nodes.set i { nd with inputs := inputs }
      | none => net.nodes }

/-- One `output` hop from node `i`. -/
def Network.outStep (net : Network) (i : Nat) : Option Nat :=
  (net.nodes[i]?).bind Node.output

/-- `k` `output` hops from node `i`; `none` once the chain ends
(or leaves the node range). -/
def Network.outIterN (net : Network) : Nat → Nat → Option Nat
  | 0, i => some i
  | k + 1, i => (net.outStep i).bind (net.outIterN k)

/-! ### String primitives

The Rust string helpers (`trim`, `starts_with`, `split_once`,
`ends_with`) are embedded structurally over the character list of the
string so that they evaluate by kernel reduction.  `trim` strips ASCII
whitespace (the only whitespace the inputs under study contain). -/

/-- Whitespace test used by `trim`. -/
def isWs (c : Char) : Bool :=
  c = ' ' || c = '\t' || c = '\n' || c = '\r'

/-- Rust `str::trim`. -/
def strTrim (s : String) : String :=
  ⟨((s.data.dropWhile isWs).reverse.dropWhile isWs).reverse⟩

/-- Does the first list start with the second? -/
def listStarts [DecidableEq α] : List α → List α → Bool
  | _, [] => true
  | [], _ :: _ => false
  | x :: xs, p :: ps => decide (x = p) && listStarts xs ps

/-- Split at the first occurrence of the (nonempty) pattern, dropping
it — `str::split_once` on character lists. -/
def splitFirst (pat : List Char) : List Char → Option (List Char × List Char)
  | [] => none
  | c :: rest =>
    if listStarts (c :: rest) pat then some ([], (c :: rest).drop pat.length)
    else (splitFirst pat rest).map fun pr => (c :: pr.1, pr.2)

/-- Rust `str::split_once`. -/
def strSplitOnce (sep s : String) : Option (String × String) :=
  (splitFirst sep.data s.data).map fun pr => (⟨pr.1⟩, ⟨pr.2⟩)

/-- Rust `str::starts_with`. -/
def strStarts (s pat : String) : Bool :=
  listStarts s.data pat.data

/-- Rust `str::ends_with` for a single character. -/
def strEndsWithChar (s : String) (c : Char) : Bool :=
  s.data.getLast? = some c

/-- Drop the final character (`&var[..(var.len() - 1)]` when the final
character is one byte). -/
def strDropLast (s : String) : String :=
  ⟨s.data.dropLast⟩

/-! ### Ingestion (`Network::from_file`) -/

/-- State of the first parsing pass of `from_file`: the name-to-index
map (modelled by the insertion-ordered name list, index = position),
the per-index input lists, and the output map. -/
structure PState where
  names : List String
  inputs : List (List Nat)
  outMap : Nat → Option Nat

/-- Index of a known name (`indices[name]`). -/
def PState.idx (st : PState) (name : String) : Option Nat :=
  st.names.findIdx? (· = name)

/-- `insert_ifnot_node`: first occurrence of a token gets the next
sequential index and an empty input list. -/
def insertIfnotNode (st : PState) (inp : String) : PState :=
  if inp ∈ st.names then st
  else { st with names := st.names ++ [inp], inputs := st.inputs ++ [[]] }

/-- Classification of one input line, exactly as `from_file` reads it:
trim, skip empties and `#` comments, split at the first `->` into a
trimmed edge, otherwise a bare node declaration. -/
def parseLine (s : String) : Option (String ⊕ (String × String)) :=
  let t := strTrim s
  if t = "" then none
  else if strStarts t "#" then none
  else
    match strSplitOnce "->" t with
    | some lr => some (.inr (strTrim lr.1, strTrim lr.2))
    | none => some (.inl t)

/-- Processing of one line in the first pass of `from_file`: an edge
`A -> B` registers both endpoints, overwrites `output[A] := B` and
appends `A` to `inputs[B]`; a bare token just registers the node. -/
def parseStep (st : PState) (line : String) : PState :=
  match parseLine line with
  | none => st
  | some (.inl t) => insertIfnotNode st t
  | some (.inr ab) =>
    let st1 := insertIfnotNode st ab.1
    let st2 := insertIfnotNode st1 ab.2
    match st2.idx ab.1, st2.idx ab.2 with
    | some ia, some ib =>
      { st2 with
        outMap := fun k => if k = ia then some ib else st2.outMap k,
        inputs := st2.inputs.set ib (st2.inputs.getD ib [] ++ [ia]) }
    | _, _ => st2

/-- The empty parse state. -/
def pinit : PState := ⟨[], [], fun _ => none⟩

/-- First half of `Network::from_file`: parse all lines and build the
node vector (before `order` and `reindex` run).  `attrFiles` models the
optional per-node attribute files keyed by node name (empty list = no
file). -/
def Network.fromLinesRaw (lines : List String)
    (attrFiles : String → List (String × NodeAttr)) : Network :=
  let st := lines.foldl parseStep pinit
  let nodes := (List.range st.names.length).map fun i =>
    let name := st.names.getD i ""
    (Node.new i name (st.inputs.getD i []) (st.outMap i)).loadAttrs
      (attrFiles name)
  { indices := fun name => st.names.findIdx? (· = name), nodes := nodes }

/-! ### `Network::order` -/

/-- Read node `i`'s `order` attribute as a number. -/
def Network.ordAt (net : Network) (i : Nat) : Option Nat :=
  (net.nodes[i]?).bind fun nd => (nd.attrs "order").bind NodeAttr.read_number

/-- The loop of `Network::order`.  `all` is the `all_nodes` set (head =
the arbitrary element `iter().next()` picks), `queue` the explicit stack
(`order_queue`, head = top of the Rust `Vec`).  A Rust iteration that
both reseeds and pops is two successive steps here. -/
def orderGo (net : Network) : Nat → List Nat → List Nat → Option Network
  | 0, _, _ => none
  | fuel + 1, all, queue =>
    match queue with
    | [] =>
      match all with
      | [] => some net
      | a :: rest => orderGo net fuel rest [a]
    | n :: qrest =>
      match net.nodes[n]? with
      | none => none
      | some nd =>
        if nd.inputs = [] then
          orderGo (net.setNodeAttr n "order" (.number 1)) fuel all qrest
        else
          let uncalc := nd.inputs.filter (· ∈ all)
          if uncalc = [] then
            match nd.inputs.mapM net.ordAt with
            | none => none
            | some vals =>
              orderGo (net.setNodeAttr n "order" (.number (vals.sum + 1)))
                fuel all qrest
          else
            orderGo net fuel (all.filter (· ∉ uncalc))
              (uncalc.reverse ++ n :: qrest)

/-- `Network::order`.  The loop performs at most `2·n` state changes
(measured by `2·|all_nodes| + |order_queue|`), so fuel `2·n + 1`
always suffices; `none` models a panicking `unwrap` on a missing
`order` attribute. -/
def Network.order (net : Network) : Option Network :=
  orderGo net (2 * net.nodes.length + 1) (List.range net.nodes.length) []

/-! ### `Network::reindex` -/

/-- The `while let` chase in `reindex` locating the terminal outlet of
the component containing node 0. -/
def chaseRoot (net : Network) : Nat → Nat → Option Nat
  | 0, _ => none
  | fuel + 1, i =>
    match net.nodes[i]? with
    | none => none
    | some nd =>
      match nd.output with
      | none => some i
      | some o => chaseRoot net fuel o

/-- Stable insertion of `x` into a list already sorted by `key`:
`x` goes before the first strictly larger key, after equal keys. -/
def insertSorted (key : Nat → Nat) (x : Nat) : List Nat → List Nat
  | [] => [x]
  | y :: ys => if key x ≤ key y then x :: y :: ys else y :: insertSorted key x ys

/-- Stable ascending sort by `key`; any stable sort produces the same
list, so this insertion sort is an exact model of Rust's stable
`sort_by` under the `orders[n1].cmp(&orders[n2])` comparator. -/
def stableSortBy (key : Nat → Nat) : List Nat → List Nat
  | [] => []
  | x :: xs => insertSorted key x (stableSortBy key xs)

/-- The `orders` vector the `reindex` loop recomputes on every
iteration: every node's `order` attribute, unwrapped. -/
def ordersOf (net : Network) : Option (List Nat) :=
  net.nodes.mapM fun m => (m.attrs "order").bind NodeAttr.read_number

/-- The `(input, level)` enqueue list of one `reindex` iteration as the
code computes it: the input **equal to the last element** of the sorted
list continues at the same level, the others go one level deeper. -/
def codeEntries (sorted : List Nat) (level : Nat) : List (Nat × Nat) :=
  sorted.map fun inp =>
    (inp, if some inp = sorted.getLast? then level else level + 1)

/-- The same enqueue list as the spec words it (section 4.3): the input
**at the last position** after the sort continues at the same level. -/
def specEntries (sorted : List Nat) (level : Nat) : List (Nat × Nat) :=
  (List.range sorted.length).map fun k =>
    (sorted.getD k 0, if k = sorted.length - 1 then level else level + 1)

/-- Remove every enqueued node from the remaining-nodes set
(`all_nodes.remove(&inp)` per push). -/
def eraseFirsts (al : List Nat) (entries : List (Nat × Nat)) : List Nat :=
  entries.foldl (fun al e => al.erase e.1) al

/-- The traversal loop of `Network::reindex`.  `all` is `all_nodes`
(head models the arbitrary `iter().next()`), `queue` the FIFO
`curr_nodes` of `(node, level)` pairs (head = front), `visited` the
`nodes` list of dequeued `(node, level)` pairs.  Each dequeue sorts the
node's inputs in place by their `order` value and enqueues every input,
the one equal to the last (largest-order) element at the same level and
the rest one level deeper. -/
def reindexGo (net : Network) :
    Nat → List Nat → List (Nat × Nat) → List (Nat × Nat) →
    Option (Network × List (Nat × Nat))
  | 0, _, _, _ => none
  | fuel + 1, all, queue, visited =>
    match queue with
    | [] =>
      match all with
      | [] => some (net, visited)
      | a :: rest => reindexGo net fuel rest [(a, 0)] visited
    | (n, level) :: qrest =>
      match net.nodes[n]? with
      | none => none
      | some nd =>
        if nd.inputs = [] then
          reindexGo net fuel (all.erase n) qrest (visited ++ [(n, level)])
        else
          match ordersOf net with
          | none => none
          | some orders =>
            let sorted := stableSortBy (fun i => orders.getD i 0) nd.inputs
            reindexGo (net.setNodeInputs n sorted) fuel
              (eraseFirsts (all.erase n) (codeEntries sorted level))
              (qrest ++ codeEntries sorted level) (visited ++ [(n, level)])

/-- Last-wins old-index-to-new-position table built from the visitation
list (`nodes.iter().enumerate().map(|(i, n)| (n.0, i)).collect()`:
a later pair overwrites an earlier one with the same old index). -/
def lastPosMap (visited : List (Nat × Nat)) (o : Nat) : Option Nat :=
  (List.range visited.length).foldl
    (fun acc i => if (visited.getD i (0, 0)).1 = o then some i else acc) none

/-- The rebuild phase of `reindex`: clone the nodes in visitation order,
reassign `index`, remap `inputs`/`output` through the old-to-new table,
record the `level` attribute, and rebuild the name-to-index map. -/
def applyReindex (net : Network) (visited : List (Nat × Nat)) :
    Option Network :=
  let imap := lastPosMap visited
  match (List.range visited.length).mapM (fun i =>
      match net.nodes[(visited.getD i (0, 0)).1]? with
      | none => none
      | some nd =>
        match nd.inputs.mapM imap with
        | none => none
        | some newInputs =>
          let nd2 := ((nd.set_index i).set_inputs newInputs)
          match nd.output with
          | none =>
            some (nd2.set_attr "level" (.number (visited.getD i (0, 0)).2))
          | some out =>
            match imap out with
            | none => none
            | some newOut =>
              some ((nd2.set_output newOut).set_attr "level"
                (.number (visited.getD i (0, 0)).2))) with
  | none => none
  | some newNodes =>
    some { indices := fun name =>
             (List.range newNodes.length).foldl
               (fun acc i =>
                 if (newNodes.getD i (Node.new 0 "" [] none)).name = name
                 then some i else acc) none,
           nodes := newNodes }

/-- `Network::reindex`.  Each node is dequeued at most `depth + 1`
times, so `(n + 2)²` fuel covers every terminating run of the source
loop; `none` models a panic or a diverging run. -/
def Network.reindex (net : Network) : Option Network :=
  if net.nodes.isEmpty then some net
  else
    match chaseRoot net (net.nodes.length + 1) 0 with
    | none => none
    | some root =>
      match reindexGo net ((net.nodes.length + 2) * (net.nodes.length + 2))
          (List.range net.nodes.length) [(root, 0)] [] with
      | none => none
      | some nv => applyReindex nv.1 nv.2

/-- `Network::from_file`: parse, build nodes, then `order` and
`reindex`. -/
def Network.fromLines (lines : List String)
    (attrFiles : String → List (String × NodeAttr)) : Option Network :=
  ((Network.fromLinesRaw lines attrFiles).order).bind Network.reindex

/-! ### `Network::cumulate` -/

/-- The apostrophe character, spelled via its code point. -/
def apos : String := String.singleton (Char.ofNat 39)

/-- The strict-mode missing-attribute message of `get_values`. -/
def missingMsg (name var : String) : String :=
  "Node " ++ name ++ " doesn" ++ apos ++ "t have attribute " ++ var

/-- The strict-mode non-numeric-attribute message of `get_values`. -/
def parseMsg (name var : String) : String :=
  "Node " ++ name ++ ", attribute " ++ var ++ " is not parsable as float"

/-- One node of the `get_values` loop: read attribute `var` of the node
into the by-name value map; in safe mode a missing or non-numeric value
defaults to 0, in strict mode it aborts with a message naming the node
and the attribute. -/
def gvStep (var : String) (safe : Bool) (vals : String → Option Int)
    (nd : Node) : Except String (String → Option Int) :=
  if safe then
    pure fun k =>
      if k = nd.name then some (((nd.attrs var).bind NodeAttr.read_value).getD 0)
      else vals k
  else
    match nd.attrs var with
    | none => .error (missingMsg nd.name var)
    | some a =>
      match a.read_value with
      | none => .error (parseMsg nd.name var)
      | some v =>
        pure fun k => if k = nd.name then some v else vals k

/-- `get_values`. -/
def getValues (net : Network) (var : String) (safe : Bool) :
    Except String (String → Option Int) :=
  net.nodes.foldlM (gvStep var safe) (fun _ => none)

/-- The inner `loop` of `cumulate`: walk the `output` chain from `out`,
adding `v` into the value map at every node passed.  `none` models the
panics (absent name or index) and a diverging chain. -/
def walkAdd (net : Network) (v : Int) :
    Nat → (String → Option Int) → Option Nat → Option (String → Option Int)
  | _, vals, none => some vals
  | 0, _, some _ => none
  | fuel + 1, vals, some o =>
    match net.nodes[o]? with
    | none => none
    | some nd =>
      match vals nd.name with
      | none => none
      | some cur =>
        walkAdd net v fuel
          (fun k => if k = nd.name then some (cur + v) else vals k) nd.output

/-- `set_values`: store `cum_<var>` on every node from the value map. -/
def setValues (net : Network) (var : String) (vals : String → Option Int) :
    Option Network :=
  (List.range net.nodes.length).foldlM
    (fun acc i =>
      (acc.nodes[i]?).bind fun nd =>
        (vals nd.name).map fun v =>
          acc.setNodeAttr i ("cum_" ++ var) (.value v))
    net

/-- One node of the outer `for node in &cl.nodes` loop of `cumulate`:
read the node's current value and add it along its downstream chain. -/
def walkAllStep (net : Network) (vals : String → Option Int) (nd : Node) :
    Option (String → Option Int) :=
  (vals nd.name).bind fun v =>
    walkAdd net v (net.nodes.length + 1) vals nd.output

/-- One iteration of the `for var in variables` loop of `cumulate`:
strip a trailing `?` (safe mode), read the base values, walk every
node's downstream chain, then store the `cum_` results. -/
def cumulateVar (net : Network) (var0 : String) : Option (Except String Network) :=
  let p := if strEndsWithChar var0 '?' then (strDropLast var0, true)
           else (var0, false)
  match getValues net p.1 p.2 with
  | .error e => some (.error e)
  | .ok vals0 =>
    match net.nodes.foldlM (walkAllStep net) vals0 with
    | none => none
    | some vals => (setValues net p.1 vals).map .ok

/-- The variable loop of `cumulate`; an error aborts, leaving the
network as the previous iterations left it. -/
def cumulateGo (net : Network) : List String → Option (Network × Option String)
  | [] => some (net, none)
  | v :: rest =>
    match cumulateVar net v with
    | none => none
    | some (.error e) => some (net, some e)
    | some (.ok net2) => cumulateGo net2 rest

/-- `Network::cumulate`: the result is the mutated network together
with the error, if any, that made it return early (`none` = the
source's `Ok(())`).  An outer `none` models a panic or diverging walk. -/
def Network.cumulate (net : Network) (vars : List String) :
    Option (Network × Option String) :=
  if net.nodes.isEmpty then some (net, none) else cumulateGo net vars

/-! ### Templates and the ASCII tree renderer (`Network::graph_print`) -/

/-- Modelled from the spec (section 4.5): the template engine is the
external `string_template_plus` crate, not part of this repository.  A
parsed template is an ordered sequence of literal spans and attribute
references. -/
inductive TemplatePart where
  | lit : String → TemplatePart
  | ref : String → TemplatePart

/-- Modelled from the spec (section 4.5): a parsed template. -/
abbrev Template := List TemplatePart

/-- Modelled from the spec (section 4.5): `Node::format` renders the
template against the node's variable map; a reference to a variable the
node does not have makes the render fail, which the source then
`unwrap`s (the strict policy of section 4.5). -/
def Node.format (nd : Node) (tmpl : Template) : Option String :=
  (tmpl.mapM fun p =>
    match p with
    | TemplatePart.lit s => some s
    | TemplatePart.ref k => nd.vars k).map String.join

/-- The per-node print record of `graph_print` (`struct GraphNode`):
pipe counts before/after the node glyph, the merge flag, and the
rendered label. -/
structure GraphNode where
  pre : Nat
  post : Nat
  merge : Bool
  text : String
deriving DecidableEq

/-- `s` repeated `k` times. -/
def dupStr (s : String) (k : Nat) : String :=
  String.join (List.replicate k s)

/-- The glyph column of one node line: `" |"` repeated `pre` times,
with the final pipe popped and replaced by `+` on a merge, then the
node marker, then `" |"` repeated `post` times. -/
def gnodeGlyphs (g : GraphNode) : String :=
  let s := dupStr " |" g.pre
  let s := if g.merge then strDropLast s ++ "+" else s
  s ++ (if g.merge then "-*" else " *") ++ dupStr " |" g.post

/-- Rust's `{:w$}` string padding: left-aligned, space-filled to `w`
characters (no-op when already wider). -/
def padTo (s : String) (w : Nat) : String :=
  s ++ dupStr " " (w - s.data.length)

/-- The connector line printed under one node line. -/
def connLine (g : GraphNode) : String :=
  dupStr " |" (g.pre + (if g.merge then 0 else 1)) ++ dupStr " |" g.post

/-- The input-pushing loop of the renderer traversals: push each input
still in `all_nodes` onto the stack (head = top) and remove it from
`all_nodes`; inputs already visited or queued are skipped. -/
def pushInputs (inputs : List Nat) (stack all : List Nat) :
    List Nat × List Nat :=
  inputs.foldl
    (fun pr inp => if inp ∈ pr.2 then (inp :: pr.1, pr.2.erase inp) else pr)
    (stack, all)

/-- The traversal loop of `graph_print`: a depth-first walk over node
positions (stack head = top), pushing only inputs still in `all_nodes`
and reseeding arbitrarily (modelled: least remaining) when the stack
drains with nodes left.  Each pop records a `GraphNode` built from the
node's `level`, its output's `level` (own level when it has no output)
and the rendered label. -/
def graphGo (net : Network) (tmpl : Template) :
    Nat → List Nat → List Nat → List GraphNode → Option (List GraphNode)
  | 0, _, _, _ => none
  | fuel + 1, all, stack, acc =>
    match stack with
    | [] =>
      match all with
      | [] => some acc
      | a :: rest => graphGo net tmpl fuel rest [a] acc
    | n :: srest =>
      match net.nodes[n]? with
      | none => none
      | some nd =>
        match nd.format tmpl with
        | none => none
        | some text =>
          match (nd.attrs "level").bind NodeAttr.read_number with
          | none => none
          | some level =>
            match net.nodes[nd.output.getD nd.index]? with
            | none => none
            | some pnd =>
              match (pnd.attrs "level").bind NodeAttr.read_number with
              | none => none
              | some parLevel =>
                graphGo net tmpl fuel
                  (pushInputs nd.inputs srest all).2
                  (pushInputs nd.inputs srest all).1
                  (acc ++ [⟨level, 0, level != parLevel, text⟩])

/-- Render the collected `GraphNode`s to output lines: the records are
printed in reverse collection order, each as a node line (glyphs padded
to the widest glyph column, two spaces, label) followed by a connector
line. -/
def renderGraphNodes (gnodes : List GraphNode) : List String :=
  let rev := gnodes.reverse
  let gtexts := rev.map gnodeGlyphs
  let maxw := (gtexts.map fun t => t.data.length).max?.getD 10
  (rev.map fun g =>
    [padTo (gnodeGlyphs g) maxw ++ "  " ++ g.text, connLine g]).flatten

/-- `Network::graph_print`, as the list of standard-output lines (the
`Error` marker the reseeding branch emits goes to standard error and is
not part of the output).  An empty network prints nothing. -/
def Network.graph_print (net : Network) (tmpl : Template) :
    Option (List String) :=
  if net.nodes.isEmpty then some []
  else
    (graphGo net tmpl (2 * net.nodes.length + 2)
        (List.range' 1 (net.nodes.length - 1)) [0] []).map renderGraphNodes

/-! ### The spec's description of the `reindex` traversal (section 4.3),
used to settle the refinement claim C2. -/

/-- Follows the wording of spec section 4.3: identical to `reindexGo`
except that the input kept at the same level is designated by its
position (the element that is last after the stable ascending sort);
all other positions are enqueued one level deeper. -/
def reindexSpecGo (net : Network) :
    Nat → List Nat → List (Nat × Nat) → List (Nat × Nat) →
    Option (Network × List (Nat × Nat))
  | 0, _, _, _ => none
  | fuel + 1, all, queue, visited =>
    match queue with
    | [] =>
      match all with
      | [] => some (net, visited)
      | a :: rest => reindexSpecGo net fuel rest [(a, 0)] visited
    | (n, level) :: qrest =>
      match net.nodes[n]? with
      | none => none
      | some nd =>
        if nd.inputs = [] then
          reindexSpecGo net fuel (all.erase n) qrest (visited ++ [(n, level)])
        else
          match ordersOf net with
          | none => none
          | some orders =>
            let sorted := stableSortBy (fun i => orders.getD i 0) nd.inputs
            reindexSpecGo (net.setNodeInputs n sorted) fuel
              (eraseFirsts (all.erase n) (specEntries sorted level))
              (qrest ++ specEntries sorted level) (visited ++ [(n, level)])

/-- The spec-worded `reindex`: the terminal outlet of node 0's
component is the root at level 0, the traversal follows
`reindexSpecGo`, and the rebuild phase is the one of section 4.3 step 4
(identical to the source's). -/
def Network.reindexSpec (net : Network) : Option Network :=
  if net.nodes.isEmpty then some net
  else
    match chaseRoot net (net.nodes.length + 1) 0 with
    | none => none
    | some root =>
      match reindexSpecGo net ((net.nodes.length + 2) * (net.nodes.length + 2))
          (List.range net.nodes.length) [(root, 0)] [] with
      | none => none
      | some nv => applyReindex nv.1 nv.2

/-! ### Structural well-formedness (spec section 3 invariants) -/

/-- Node `i`, with a dummy default for out-of-range positions. -/
def Network.nodeAt (net : Network) (i : Nat) : Node :=
  net.nodes.getD i (Node.new 0 "" [] none)

/-- Read node `i`'s `level` attribute as a number. -/
def Network.levelAt (net : Network) (i : Nat) : Option Nat :=
  (net.nodes[i]?).bind fun nd => (nd.attrs "level").bind NodeAttr.read_number

/-- The data-model invariants of spec section 3: inputs reference
in-range nodes, each node's input list is duplicate-free, and an input
edge is mirrored by the input's `output` pointer. -/
structure WellFormed (net : Network) : Prop where
  inputs_lt : ∀ i < net.nodes.length,
    ∀ j ∈ (net.nodeAt i).inputs, j < net.nodes.length
  inputs_nodup : ∀ i < net.nodes.length, (net.nodeAt i).inputs.Nodup
  bidir : ∀ i < net.nodes.length,
    ∀ j ∈ (net.nodeAt i).inputs, net.outStep j = some i

/-- Acyclicity of the `output` relation, stated boundedly: from any
node the `output` chain dies out within `n` hops. -/
def Network.Acyclic (net : Network) : Prop :=
  ∀ i < net.nodes.length, net.outIterN net.nodes.length i = none

/-- `j` is strictly upstream of `i`: some positive number of `output`
hops leads from `j` to `i`. -/
def UpSt (net : Network) (j i : Nat) : Prop :=
  ∃ k, k ≠ 0 ∧ net.outIterN k j = some i

/-- Node `i` of `net` satisfies the `order` recurrence: reading the
`order` attribute of every input succeeds, and `i`'s own `order`
attribute reads as one plus their sum (so a leaf reads exactly 1). -/
def OrderRec (net : Network) (i : Nat) : Prop :=
  ∃ nd vals, net.nodes[i]? = some nd ∧
    nd.inputs.mapM net.ordAt = some vals ∧
    net.ordAt i = some (vals.sum + 1)

/-- Two networks agree on the index map and on every structural node
field (index, name, inputs, output) — they differ at most in attribute
and template-variable maps.  `order` only performs `set_attr`, so its
intermediate states all stand in this relation to the input. -/
def SameShape (a b : Network) : Prop :=
  a.indices = b.indices ∧
  a.nodes.length = b.nodes.length ∧
  ∀ i : Nat,
    (a.nodes[i]?).map (fun nd => (nd.index, nd.name, nd.inputs, nd.output))
      = (b.nodes[i]?).map (fun nd => (nd.index, nd.name, nd.inputs, nd.output))

/-- The template-variable map is synchronised with the attribute map:
every attribute key carries exactly the display string of its current
value. -/
def VarsSync (nd : Node) : Prop :=
  ∀ k v, nd.attrs k = some v → nd.vars k = some v.display

/-- No attribute-file enrichment (the common case: no `nodes/` files). -/
def noAttrFiles : String → List (String × NodeAttr) := fun _ => []

/-- An attribute file giving every node the single pair `v = 1`. -/
def vOneFiles : String → List (String × NodeAttr) := fun _ =>
  [("v", NodeAttr.number 1)]

/-- An attribute file giving only node `A` the pair `v = 2`. -/
def vAFiles : String → List (String × NodeAttr) := fun nm =>
  if nm = "A" then [("v", NodeAttr.number 2)] else []

/-- The four-node scenario network after the full `from_file` pipeline
(parse, order, reindex), extracted from its `Option` wrapper: the
concrete instance on which several witnesses are evaluated. -/
def netScenario : Network :=
  (Network.fromLines ["A -> C", "B -> C", "C -> D"] noAttrFiles).getD
    ⟨fun _ => none, []⟩

/-- Acyclicity is a bounded statement, hence decidable. -/
instance (net : Network) : Decidable net.Acyclic :=
  inferInstanceAs
    (Decidable (∀ i < net.nodes.length, net.outIterN net.nodes.length i = none))

/-- The glyph column as claim C8 words it: the literal `"| "` repeated
`pre` times, with the last inserted pipe replaced by `"+"` when `merge`
is true, followed by `"-*"` (merge) or `" *"` (no merge). -/
def claimedGlyphs (pre : Nat) (merge : Bool) : String :=
  (if merge then
    (if pre = 0 then "" else dupStr "| " (pre - 1) ++ "+ ")
  else dupStr "| " pre) ++ (if merge then "-*" else " *")

/-- A collected `GraphNode` is well-formed: it was built from some node
of the network, with `pre` the node's `level`, `merge` comparing that
level against the level of the node's output (itself when absent), and
`text` the rendered label. -/
def GOk (net : Network) (tmpl : Template) (g : GraphNode) : Prop :=
  ∃ nd ∈ net.nodes, ∃ lv plv : Nat,
    (nd.attrs "level").bind NodeAttr.read_number = some lv ∧
    (∃ pnd, net.nodes[nd.output.getD nd.index]? = some pnd ∧
      (pnd.attrs "level").bind NodeAttr.read_number = some plv) ∧
    nd.format tmpl = some g.text ∧
    g.pre = lv ∧ g.post = 0 ∧ g.merge = (lv != plv)

/-- The edge lines of the input, in order, as (source, target) pairs. -/
def parsedEdges (lines : List String) : List (String × String) :=
  lines.filterMap fun l =>
    match parseLine l with
    | some (.inr ab) => some ab
    | _ => none

/-- The target of the last edge line whose source is `a`. -/
def lastSrcTarget (lines : List String) (a : String) : Option String :=
  (((parsedEdges lines).filter fun e => e.1 = a).getLast?).map Prod.snd

/-! ## Theorems -/

/-! ### C3: `reindex` on disconnected forests -/

/-- C3 (evidence of the code bug): the two-component forest
`"X"`, `"B -> A"` has three nodes, but `from_file` (ingestion followed
by `order` and `reindex`) returns a node sequence of length four in
which node `B` occurs twice: when the second component is seeded at the
non-outlet `B`, the later dequeue of `A` re-enqueues `B` without a
membership check, so `B` is dequeued and cloned twice and the index set
`{0,1,2,3}` does not match the forest's three nodes. -/
theorem C3_reindex_duplicates_nodes :
    (Network.fromLinesRaw ["X", "B -> A"] noAttrFiles).nodes.length = 3 ∧
      (Network.fromLines ["X", "B -> A"] noAttrFiles).map
          (fun net => net.nodes.map Node.name)
        = some ["X", "B", "A", "B"] := by
  constructor
  · decide
  · decide

/-! ### C4: `cumulate` after `reindex` -/

/-- C4 (evidence of the code bug): on the ingested forest `"X"`,
`"B -> A"` with base attribute `v = 1` on every node, the claim demands
`cum_v(A) = v(A) + v(B) = 2`, but strict-mode `cumulate` returns
`cum_v(A) = 3`: the `reindex` duplication makes the node sequence
process `B` twice, so `B`'s value is added to its downstream node `A`
twice (first two conjuncts).  The claim's own two-node safe-mode
scenario `A -> B` with `A.v = 2`, `B.v` absent does hold:
`cum_v(A) = cum_v(B) = 2` with no error (last conjunct). -/
theorem C4_cumulate_overcounts_after_reindex :
    ((Network.fromLines ["X", "B -> A"] vOneFiles).bind
        (fun net => net.cumulate ["v"])).map
        (fun p => (p.2, p.1.nodes.map fun nd =>
          (nd.name, (nd.attrs "cum_v").bind NodeAttr.read_value)))
      = some (none,
          [("X", some 1), ("B", some 1), ("A", some 3), ("B", some 1)]) ∧
      (3 : Int) ≠ 1 + 1 ∧
      ((Network.fromLines ["A -> B"] (fun nm =>
          if nm = "A" then [("v", NodeAttr.number 2)] else [])).bind
        (fun net => net.cumulate ["v?"])).map
        (fun p => (p.2, p.1.nodes.map fun nd =>
          (nd.name, (nd.attrs "cum_v").bind NodeAttr.read_value)))
      = some (none, [("B", some 2), ("A", some 2)]) := by
  refine ⟨by decide, by decide, by decide⟩

/-! ### C5: the four-node scenario -/

/-- C5 (counterexample): on the scenario input `"A -> C"`, `"B -> C"`,
`"C -> D"` the claim asserts that both `A` and `B` end at `level = 1`
relative to `C`; the code instead leaves `B` — the input that is last
after the stable ascending sort of `C`'s inputs — at `C`'s own level,
so `B`'s `level` attribute is `0`, not `1`. -/
theorem C5_counterexample_B_level :
    (Network.fromLines ["A -> C", "B -> C", "C -> D"] noAttrFiles).map
        (fun net => net.nodes.map fun nd =>
          (nd.name, (nd.attrs "level").bind NodeAttr.read_number))
      = some [("D", some 0), ("C", some 0), ("A", some 1), ("B", some 0)] ∧
      (some 0 : Option Nat) ≠ some 1 := by
  constructor
  · decide
  · decide

/-- C5 (amended): on the scenario input, four nodes are created with
`order(A) = order(B) = 1`, `order(C) = 3`, `order(D) = 4`; the
traversal visits `D`, then `C` at `D`'s level, then `A` and `B` in
original input-list order, with `A` one level deeper and `B` — the
largest-order input after the positional tie-break — staying at `C`'s
level. -/
theorem C5_amended_scenario :
    (Network.fromLines ["A -> C", "B -> C", "C -> D"] noAttrFiles).map
        (fun net => net.nodes.map fun nd =>
          (nd.name, (nd.attrs "order").bind NodeAttr.read_number,
            (nd.attrs "level").bind NodeAttr.read_number))
      = some [("D", some 4, some 0), ("C", some 3, some 0),
              ("A", some 1, some 1), ("B", some 1, some 0)] := by
  decide

/-! ### C6: idempotence of `order` + `reindex` -/

/-- C6 (evidence of the code bug): starting from the ingested forest
`"X"`, `"C -> B"`, `"B -> A"`, the first `order` + `reindex` pass
(inside `from_file`) produces a seven-entry node sequence; recomputing
`order` and applying `reindex` a second time produces an eight-entry
sequence, so the second application does not reproduce the first one's
node sequence.  The divergence is the same missing membership check as
in C3: duplicated clones share input pointers, which the second pass
re-duplicates. -/
theorem C6_reindex_not_idempotent :
    ((Network.fromLines ["X", "C -> B", "B -> A"] noAttrFiles).bind
        (fun net1 => ((net1.order).bind Network.reindex).map
          (fun net2 => (net1.nodes.map Node.name, net2.nodes.map Node.name))))
      = some (["X", "C", "B", "C", "A", "B", "C"],
              ["X", "C", "B", "C", "C", "A", "B", "C"]) ∧
      (["X", "C", "B", "C", "A", "B", "C"] : List String)
        ≠ ["X", "C", "B", "C", "C", "A", "B", "C"] := by
  constructor
  · decide
  · decide

/-! ### C10: attribute map and template-variable map stay in sync -/

/-- C10: a freshly constructed node is synchronised, and each of
`set_attr`, `set_index`, `set_inputs` and `set_output` preserves the
synchronisation: every key present in the attribute map is mirrored in
the template-variable map by exactly the display string of its current
value (in particular the mirrored `name`, `index` and `inputs`
attributes). -/
theorem C10_vars_mirror_attrs :
    (∀ (i : Nat) (name : String) (inputs : List Nat) (output : Option Nat),
        VarsSync (Node.new i name inputs output)) ∧
      (∀ (nd : Node) (k : String) (v : NodeAttr),
        VarsSync nd → VarsSync (nd.set_attr k v)) ∧
      (∀ (nd : Node) (i : Nat), VarsSync nd → VarsSync (nd.set_index i)) ∧
      (∀ (nd : Node) (l : List Nat), VarsSync nd → VarsSync (nd.set_inputs l)) ∧
      (∀ (nd : Node) (o : Nat), VarsSync nd → VarsSync (nd.set_output o)) := by
  have hset : ∀ (nd : Node) (k : String) (v : NodeAttr),
      VarsSync nd → VarsSync (nd.set_attr k v) := by
    intro nd k v h k2 v2 hat
    simp only [Node.set_attr] at hat ⊢
    by_cases hk : k2 = k
    · simp [hk] at hat ⊢
      rw [hat]
    · simp [hk] at hat ⊢
      exact h k2 v2 hat
  have hnew : ∀ (i : Nat) (name : String) (inputs : List Nat)
      (output : Option Nat), VarsSync (Node.new i name inputs output) := by
    intro i name inputs output
    apply hset
    apply hset
    apply hset
    intro k v hat
    simp at hat
  refine ⟨hnew, hset, ?_, ?_, ?_⟩
  · intro nd i h
    exact hset nd "index" (.number i) h
  · intro nd l h
    exact hset nd "inputs" (.vec l) h
  · intro nd o h
    exact hset nd "output" (.number o) h

/-- C10 (witness): the synchronisation invariant, instantiated on a
concrete freshly built node mutated once through each setter. -/
theorem C10_vars_mirror_attrs_witness :
    VarsSync ((((Node.new 0 "w" [] none).set_attr "x"
        (NodeAttr.number 3)).set_inputs [1]).set_output 2) :=
  C10_vars_mirror_attrs.2.2.2.2 _ 2
    (C10_vars_mirror_attrs.2.2.2.1 _ [1]
      (C10_vars_mirror_attrs.2.1 _ "x" (NodeAttr.number 3)
        (C10_vars_mirror_attrs.1 0 "w" [] none)))

/-! ### C9: edge ingestion

Helper lemmas about the parse state fold, then the claim theorem. -/

theorem insertIfnot_names_cases (st : PState) (x : String) :
    (insertIfnotNode st x).names = st.names ∨
      (insertIfnotNode st x).names = st.names ++ [x] := by
  by_cases h : x ∈ st.names <;> simp [insertIfnotNode, h]

theorem insertIfnot_names_ext (st : PState) (x : String) :
    ∃ suf, (insertIfnotNode st x).names = st.names ++ suf := by
  rcases insertIfnot_names_cases st x with h | h
  · exact ⟨[], by simp [h]⟩
  · exact ⟨[x], h⟩

theorem insertIfnot_outMap (st : PState) (x : String) :
    (insertIfnotNode st x).outMap = st.outMap := by
  by_cases h : x ∈ st.names <;> simp [insertIfnotNode, h]

theorem insertIfnot_len (st : PState) (x : String)
    (h : st.names.length = st.inputs.length) :
    (insertIfnotNode st x).names.length = (insertIfnotNode st x).inputs.length := by
  by_cases hm : x ∈ st.names <;> simp [insertIfnotNode, hm, h]

theorem insertIfnot_mem (st : PState) (x : String) :
    x ∈ (insertIfnotNode st x).names := by
  by_cases h : x ∈ st.names <;> simp [insertIfnotNode, h]

theorem insertIfnot_mem_mono (st : PState) (x y : String)
    (h : y ∈ st.names) : y ∈ (insertIfnotNode st x).names := by
  by_cases hm : x ∈ st.names <;> simp [insertIfnotNode, hm, h]

theorem insertIfnot_inputs_getD (st : PState) (y : String) (ib : Nat)
    (hb : ib < st.inputs.length) :
    (insertIfnotNode st y).inputs.getD ib [] = st.inputs.getD ib [] := by
  by_cases hm : y ∈ st.names
  · simp [insertIfnotNode, hm]
  · simp only [insertIfnotNode, hm, if_neg, not_false_iff]
    simp [List.getD_eq_getElem?_getD, List.getElem?_append_left hb]

theorem insertIfnot_inputs_len_le (st : PState) (y : String) :
    st.inputs.length ≤ (insertIfnotNode st y).inputs.length := by
  by_cases hm : y ∈ st.names <;> simp [insertIfnotNode, hm]

theorem idx_lt (st : PState) (a : String) (i : Nat) (h : st.idx a = some i) :
    i < st.names.length := by
  unfold PState.idx at h
  obtain ⟨hlt, -, -⟩ := List.findIdx?_eq_some_iff_getElem.mp h
  exact hlt

theorem idx_names_at (st : PState) (a : String) (i : Nat)
    (h : st.idx a = some i) : st.names[i]? = some a := by
  unfold PState.idx at h
  obtain ⟨hlt, hp, -⟩ := List.findIdx?_eq_some_iff_getElem.mp h
  have he : st.names[i] = a := by simpa using hp
  simp [List.getElem?_eq_getElem hlt, he]

theorem idx_inj (st : PState) (a b : String) (i : Nat)
    (ha : st.idx a = some i) (hb : st.idx b = some i) : a = b := by
  have h1 := idx_names_at st a i ha
  have h2 := idx_names_at st b i hb
  rw [h1] at h2
  exact Option.some.inj h2

theorem idx_of_mem (st : PState) (a : String) (h : a ∈ st.names) :
    ∃ i, st.idx a = some i := by
  unfold PState.idx
  have hs : (st.names.findIdx? (· = a)).isSome := by
    rw [List.findIdx?_isSome, List.any_eq_true]
    exact ⟨a, h, by simp⟩
  exact Option.isSome_iff_exists.mp hs

theorem idx_mono_names (st st' : PState) (suf : List String)
    (hn : st'.names = st.names ++ suf) (a : String) (i : Nat)
    (h : st.idx a = some i) : st'.idx a = some i := by
  unfold PState.idx at h ⊢
  rw [hn, List.findIdx?_append, h]
  rfl

theorem parseStep_names_ext (st : PState) (l : String) :
    ∃ suf, (parseStep st l).names = st.names ++ suf := by
  unfold parseStep
  cases hp : parseLine l with
  | none => exact ⟨[], by simp⟩
  | some v =>
    cases v with
    | inl t => exact insertIfnot_names_ext st t
    | inr ab =>
      obtain ⟨s1, h1⟩ := insertIfnot_names_ext st ab.1
      obtain ⟨s2, h2⟩ := insertIfnot_names_ext (insertIfnotNode st ab.1) ab.2
      refine ⟨s1 ++ s2, ?_⟩
      have hn : (insertIfnotNode (insertIfnotNode st ab.1) ab.2).names
          = st.names ++ (s1 ++ s2) := by
        rw [h2, h1, List.append_assoc]
      cases hi1 : (insertIfnotNode (insertIfnotNode st ab.1) ab.2).idx ab.1 <;>
        cases hi2 : (insertIfnotNode (insertIfnotNode st ab.1) ab.2).idx ab.2 <;>
        simpa [hi1, hi2] using hn

theorem parseStep_idx_mono (st : PState) (l : String) (a : String) (i : Nat)
    (h : st.idx a = some i) : (parseStep st l).idx a = some i := by
  obtain ⟨suf, hn⟩ := parseStep_names_ext st l
  exact idx_mono_names st _ suf hn a i h

theorem parseFold_idx_mono (ls : List String) (st : PState) (a : String)
    (i : Nat) (h : st.idx a = some i) :
    (ls.foldl parseStep st).idx a = some i := by
  induction ls generalizing st with
  | nil => exact h
  | cons l rest ih =>
    exact ih (parseStep st l) (parseStep_idx_mono st l a i h)

theorem parseStep_len (st : PState) (l : String)
    (h : st.names.length = st.inputs.length) :
    (parseStep st l).names.length = (parseStep st l).inputs.length := by
  unfold parseStep
  cases hp : parseLine l with
  | none => exact h
  | some v =>
    cases v with
    | inl t => exact insertIfnot_len st t h
    | inr ab =>
      have h2 := insertIfnot_len (insertIfnotNode st ab.1) ab.2
        (insertIfnot_len st ab.1 h)
      cases hi1 : (insertIfnotNode (insertIfnotNode st ab.1) ab.2).idx ab.1 <;>
        cases hi2 : (insertIfnotNode (insertIfnotNode st ab.1) ab.2).idx ab.2 <;>
        simpa [hi1, hi2] using h2

theorem parseFold_len (ls : List String) (st : PState)
    (h : st.names.length = st.inputs.length) :
    (ls.foldl parseStep st).names.length = (ls.foldl parseStep st).inputs.length := by
  induction ls generalizing st with
  | nil => exact h
  | cons l rest ih => exact ih (parseStep st l) (parseStep_len st l h)

theorem parseStep_edge (st : PState) (line a b : String)
    (hline : parseLine line = some (.inr (a, b)))
    (hlen : st.names.length = st.inputs.length) :
    ∃ ia ib,
      (parseStep st line).idx a = some ia ∧
      (parseStep st line).idx b = some ib ∧
      (parseStep st line).outMap ia = some ib ∧
      (parseStep st line).inputs.getD ib [] =
        (insertIfnotNode (insertIfnotNode st a) b).inputs.getD ib [] ++ [ia] := by
  have hamem : a ∈ (insertIfnotNode (insertIfnotNode st a) b).names :=
    insertIfnot_mem_mono _ b a (insertIfnot_mem st a)
  have hbmem : b ∈ (insertIfnotNode (insertIfnotNode st a) b).names :=
    insertIfnot_mem (insertIfnotNode st a) b
  obtain ⟨ia, hia⟩ := idx_of_mem _ a hamem
  obtain ⟨ib, hib⟩ := idx_of_mem _ b hbmem
  have hlen2 : (insertIfnotNode (insertIfnotNode st a) b).names.length
      = (insertIfnotNode (insertIfnotNode st a) b).inputs.length :=
    insertIfnot_len _ b (insertIfnot_len st a hlen)
  have hiblt : ib < (insertIfnotNode (insertIfnotNode st a) b).inputs.length := by
    rw [← hlen2]; exact idx_lt _ b ib hib
  have hps : parseStep st line =
      { insertIfnotNode (insertIfnotNode st a) b with
        outMap := fun k => if k = ia then some ib
          else (insertIfnotNode (insertIfnotNode st a) b).outMap k,
        inputs := (insertIfnotNode (insertIfnotNode st a) b).inputs.set ib
          ((insertIfnotNode (insertIfnotNode st a) b).inputs.getD ib [] ++ [ia]) } := by
    unfold parseStep
    rw [hline]
    simp only [hia, hib]
  refine ⟨ia, ib, ?_, ?_, ?_, ?_⟩
  · rw [hps]; exact hia
  · rw [hps]; exact hib
  · rw [hps]; simp
  · rw [hps]
    simp only []
    rw [List.getD_eq_getElem?_getD, List.getElem?_set_self ?_, Option.getD_some]
    exact hiblt

theorem insertIfnot2_names_ext (st : PState) (x y : String) :
    ∃ suf, (insertIfnotNode (insertIfnotNode st x) y).names = st.names ++ suf := by
  obtain ⟨s1, h1⟩ := insertIfnot_names_ext st x
  obtain ⟨s2, h2⟩ := insertIfnot_names_ext (insertIfnotNode st x) y
  exact ⟨s1 ++ s2, by rw [h2, h1, List.append_assoc]⟩

/-- Exhaustive description of what one parse step can do to the state. -/
theorem parseStep_cases (st : PState) (l : String) :
    parseStep st l = st ∨
      (∃ t, parseLine l = some (.inl t) ∧
        parseStep st l = insertIfnotNode st t) ∨
      (∃ a b, parseLine l = some (.inr (a, b)) ∧
        parseStep st l = insertIfnotNode (insertIfnotNode st a) b) ∨
      (∃ a b ia ib, parseLine l = some (.inr (a, b)) ∧
        (insertIfnotNode (insertIfnotNode st a) b).idx a = some ia ∧
        (insertIfnotNode (insertIfnotNode st a) b).idx b = some ib ∧
        parseStep st l =
          { insertIfnotNode (insertIfnotNode st a) b with
            outMap := fun k => if k = ia then some ib
              else (insertIfnotNode (insertIfnotNode st a) b).outMap k,
            inputs := (insertIfnotNode (insertIfnotNode st a) b).inputs.set ib
              ((insertIfnotNode (insertIfnotNode st a) b).inputs.getD ib []
                ++ [ia]) }) := by
  unfold parseStep
  cases hp : parseLine l with
  | none => exact Or.inl rfl
  | some v =>
    cases v with
    | inl t => exact Or.inr (Or.inl ⟨t, rfl, rfl⟩)
    | inr ab =>
      cases hi1 : (insertIfnotNode (insertIfnotNode st ab.1) ab.2).idx ab.1 with
      | none =>
        refine Or.inr (Or.inr (Or.inl ⟨ab.1, ab.2, by simp, ?_⟩))
        simp only [hi1]
      | some ia =>
        cases hi2 : (insertIfnotNode (insertIfnotNode st ab.1) ab.2).idx ab.2 with
        | none =>
          refine Or.inr (Or.inr (Or.inl ⟨ab.1, ab.2, by simp, ?_⟩))
          simp only [hi1, hi2]
        | some ib =>
          refine Or.inr (Or.inr (Or.inr ⟨ab.1, ab.2, ia, ib, by simp, hi1, hi2, ?_⟩))
          simp only [hi1, hi2]

theorem parseStep_inputs_mono (st : PState) (l : String) (ib : Nat)
    (hb : ib < st.inputs.length) (x : Nat)
    (hx : x ∈ st.inputs.getD ib []) :
    x ∈ (parseStep st l).inputs.getD ib [] := by
  have hb1 : ∀ y : String, ib < (insertIfnotNode st y).inputs.length :=
    fun y => lt_of_lt_of_le hb (insertIfnot_inputs_len_le st y)
  have hb2 : ∀ y z : String,
      ib < (insertIfnotNode (insertIfnotNode st y) z).inputs.length :=
    fun y z => lt_of_lt_of_le (hb1 y) (insertIfnot_inputs_len_le _ z)
  have hgd2 : ∀ y z : String,
      (insertIfnotNode (insertIfnotNode st y) z).inputs.getD ib []
        = st.inputs.getD ib [] := fun y z => by
    rw [insertIfnot_inputs_getD _ z ib (hb1 y), insertIfnot_inputs_getD st y ib hb]
  rcases parseStep_cases st l with h | ⟨t, -, h⟩ | ⟨a, b, -, h⟩ |
      ⟨a, b, ia, ib2, -, -, hib2, h⟩
  · rw [h]; exact hx
  · rw [h, insertIfnot_inputs_getD st t ib hb]; exact hx
  · rw [h, hgd2 a b]; exact hx
  · rw [h]
    simp only []
    by_cases he : ib2 = ib
    · subst he
      rw [List.getD_eq_getElem?_getD,
        List.getElem?_set_self (hb2 a b), Option.getD_some, hgd2 a b]
      exact List.mem_append_left _ hx
    · rw [List.getD_eq_getElem?_getD, List.getElem?_set_ne (by omega),
        ← List.getD_eq_getElem?_getD, hgd2 a b]
      exact hx

theorem parsedEdges_append (ls1 ls2 : List String) :
    parsedEdges (ls1 ++ ls2) = parsedEdges ls1 ++ parsedEdges ls2 :=
  List.filterMap_append ls1 ls2 _

theorem parsedEdges_single_edge (l a b : String)
    (hp : parseLine l = some (.inr (a, b))) : parsedEdges [l] = [(a, b)] := by
  simp [parsedEdges, hp]

theorem parsedEdges_single_skip (l : String) (hp : parseLine l = none) :
    parsedEdges [l] = [] := by
  simp [parsedEdges, hp]

theorem parsedEdges_single_bare (l t : String)
    (hp : parseLine l = some (.inl t)) : parsedEdges [l] = [] := by
  simp [parsedEdges, hp]

theorem lastSrcTarget_append_same (ls : List String) (l a b : String)
    (hp : parseLine l = some (.inr (a, b))) :
    lastSrcTarget (ls ++ [l]) a = some b := by
  unfold lastSrcTarget
  rw [parsedEdges_append, parsedEdges_single_edge l a b hp, List.filter_append]
  simp

theorem lastSrcTarget_append_skip (ls : List String) (l a : String)
    (hemp : parsedEdges [l] = []) :
    lastSrcTarget (ls ++ [l]) a = lastSrcTarget ls a := by
  unfold lastSrcTarget
  rw [parsedEdges_append, hemp, List.append_nil]

theorem lastSrcTarget_append_ne (ls : List String) (l a a2 b2 : String)
    (hp : parseLine l = some (.inr (a2, b2))) (hne : a2 ≠ a) :
    lastSrcTarget (ls ++ [l]) a = lastSrcTarget ls a := by
  unfold lastSrcTarget
  rw [parsedEdges_append, parsedEdges_single_edge l a2 b2 hp, List.filter_append]
  simp [hne]

theorem parseFold_edge_inputs (lines : List String) (a b : String)
    (h : (a, b) ∈ parsedEdges lines) :
    ∃ ia ib,
      (lines.foldl parseStep pinit).idx a = some ia ∧
      (lines.foldl parseStep pinit).idx b = some ib ∧
      ia ∈ (lines.foldl parseStep pinit).inputs.getD ib [] := by
  induction lines using List.reverseRecOn with
  | nil => simp [parsedEdges] at h
  | append_singleton ls l ih =>
    rw [parsedEdges_append] at h
    rw [List.foldl_append]
    simp only [List.foldl_cons, List.foldl_nil]
    rcases List.mem_append.mp h with h | h
    · obtain ⟨ia, ib, h1, h2, h3⟩ := ih h
      refine ⟨ia, ib, parseStep_idx_mono _ l a ia h1,
        parseStep_idx_mono _ l b ib h2, ?_⟩
      have hblt : ib < (ls.foldl parseStep pinit).inputs.length := by
        rw [← parseFold_len ls pinit rfl]
        exact idx_lt _ b ib h2
      exact parseStep_inputs_mono _ l ib hblt ia h3
    · have hline : parseLine l = some (.inr (a, b)) := by
        unfold parsedEdges at h
        cases hp : parseLine l with
        | none => simp [hp] at h
        | some v =>
          cases v with
          | inl t => simp [hp] at h
          | inr ab =>
            simp [hp] at h
            rw [← h]
      obtain ⟨ia, ib, h1, h2, -, h4⟩ :=
        parseStep_edge (ls.foldl parseStep pinit) l a b hline
          (parseFold_len ls pinit rfl)
      exact ⟨ia, ib, h1, h2, by rw [h4]; simp⟩

theorem parseFold_last_edge_out (lines : List String) (a b : String)
    (h : lastSrcTarget lines a = some b) :
    ∃ ia ib,
      (lines.foldl parseStep pinit).idx a = some ia ∧
      (lines.foldl parseStep pinit).idx b = some ib ∧
      (lines.foldl parseStep pinit).outMap ia = some ib := by
  induction lines using List.reverseRecOn with
  | nil => simp [lastSrcTarget, parsedEdges] at h
  | append_singleton ls l ih =>
    rw [List.foldl_append]
    simp only [List.foldl_cons, List.foldl_nil]
    cases hp : parseLine l with
    | none =>
      rw [lastSrcTarget_append_skip ls l a (parsedEdges_single_skip l hp)] at h
      obtain ⟨ia, ib, h1, h2, h3⟩ := ih h
      refine ⟨ia, ib, parseStep_idx_mono _ l a ia h1,
        parseStep_idx_mono _ l b ib h2, ?_⟩
      have hstep : parseStep (ls.foldl parseStep pinit) l
          = ls.foldl parseStep pinit := by
        unfold parseStep; rw [hp]
      rw [hstep]; exact h3
    | some v =>
      cases v with
      | inl t =>
        rw [lastSrcTarget_append_skip ls l a (parsedEdges_single_bare l t hp)] at h
        obtain ⟨ia, ib, h1, h2, h3⟩ := ih h
        refine ⟨ia, ib, parseStep_idx_mono _ l a ia h1,
          parseStep_idx_mono _ l b ib h2, ?_⟩
        have hstep : parseStep (ls.foldl parseStep pinit) l
            = insertIfnotNode (ls.foldl parseStep pinit) t := by
          unfold parseStep; rw [hp]
        rw [hstep, insertIfnot_outMap]; exact h3
      | inr ab =>
        by_cases haa : ab.1 = a
        · have hp2 : parseLine l = some (.inr (a, ab.2)) := by
            rw [hp, ← haa]
          have hbeq : ab.2 = b := by
            have hlast := lastSrcTarget_append_same ls l a ab.2 hp2
            rw [hlast] at h
            exact Option.some.inj h
          have hp3 : parseLine l = some (.inr (a, b)) := by rw [hp2, hbeq]
          obtain ⟨ia, ib, h1, h2, h3, -⟩ :=
            parseStep_edge (ls.foldl parseStep pinit) l a b hp3
              (parseFold_len ls pinit rfl)
          exact ⟨ia, ib, h1, h2, h3⟩
        · have hp2 : parseLine l = some (.inr (ab.1, ab.2)) := by
            rw [hp]
          rw [lastSrcTarget_append_ne ls l a ab.1 ab.2 hp2 haa] at h
          obtain ⟨ia, ib, h1, h2, h3⟩ := ih h
          refine ⟨ia, ib, parseStep_idx_mono _ l a ia h1,
            parseStep_idx_mono _ l b ib h2, ?_⟩
          rcases parseStep_cases (ls.foldl parseStep pinit) l with hc |
              ⟨t, ht, -⟩ | ⟨a2, b2, hab, hc⟩ | ⟨a2, b2, ia2, ib2, hab, hia2, -, hc⟩
          · rw [hc]; exact h3
          · rw [hp] at ht; exact absurd ht (by simp)
          · rw [hc]
            rw [insertIfnot_outMap, insertIfnot_outMap]; exact h3
          · have hab2 : ab = (a2, b2) := by
              rw [hp] at hab
              have hj := Option.some.inj hab
              simpa using hj
            have hab2a : ab.1 = a2 := congrArg Prod.fst hab2
            obtain ⟨suf, hnm⟩ :=
              insertIfnot2_names_ext (ls.foldl parseStep pinit) a2 b2
            have hia3 : (insertIfnotNode
                (insertIfnotNode (ls.foldl parseStep pinit) a2) b2).idx a
                = some ia :=
              idx_mono_names _ _ suf hnm a ia h1
            have hne2 : ia ≠ ia2 := by
              intro he
              exact (hab2a ▸ haa) (idx_inj _ a a2 ia hia3 (he ▸ hia2)).symm
            rw [hc]
            simp only [if_neg hne2]
            rw [insertIfnot_outMap, insertIfnot_outMap]
            exact h3

/-- C9: an edge line `A -> B` overwrites `output[A]` with `B`'s index
and appends `A`'s index to `B`'s input list (first conjunct, the
single-step effect); over a whole input, every edge occurrence leaves
`A`'s index in its target's input list — earlier targets keep their
entries — while `A`'s recorded output is the target of the last edge
line whose source is `A` (second and third conjuncts). -/
theorem C9_ingestion_edges :
    (∀ (st : PState) (line a b : String),
        parseLine line = some (.inr (a, b)) →
        st.names.length = st.inputs.length →
        ∃ ia ib,
          (parseStep st line).idx a = some ia ∧
          (parseStep st line).idx b = some ib ∧
          (parseStep st line).outMap ia = some ib ∧
          (parseStep st line).inputs.getD ib [] =
            (insertIfnotNode (insertIfnotNode st a) b).inputs.getD ib []
              ++ [ia]) ∧
      (∀ (lines : List String) (a b : String),
        (a, b) ∈ parsedEdges lines →
        ∃ ia ib,
          (lines.foldl parseStep pinit).idx a = some ia ∧
          (lines.foldl parseStep pinit).idx b = some ib ∧
          ia ∈ (lines.foldl parseStep pinit).inputs.getD ib []) ∧
      (∀ (lines : List String) (a b : String),
        lastSrcTarget lines a = some b →
        ∃ ia ib,
          (lines.foldl parseStep pinit).idx a = some ia ∧
          (lines.foldl parseStep pinit).idx b = some ib ∧
          (lines.foldl parseStep pinit).outMap ia = some ib) :=
  ⟨fun st line a b hl hlen => parseStep_edge st line a b hl hlen,
   parseFold_edge_inputs, parseFold_last_edge_out⟩

/-- C9 (witness): on the duplicate-source input `A -> B`, `A -> C`,
both targets keep `A` in their input lists and `A`'s output is the
last target `C`. -/
theorem C9_ingestion_edges_witness :
    (∃ ia ib,
        ((["A -> B", "A -> C"] : List String).foldl parseStep pinit).idx "A"
            = some ia ∧
          ((["A -> B", "A -> C"] : List String).foldl parseStep pinit).idx "B"
            = some ib ∧
          ia ∈ ((["A -> B", "A -> C"] : List String).foldl
            parseStep pinit).inputs.getD ib []) ∧
      (∃ ia ib,
        ((["A -> B", "A -> C"] : List String).foldl parseStep pinit).idx "A"
            = some ia ∧
          ((["A -> B", "A -> C"] : List String).foldl parseStep pinit).idx "C"
            = some ib ∧
          ((["A -> B", "A -> C"] : List String).foldl parseStep pinit).outMap ia
            = some ib) :=
  ⟨C9_ingestion_edges.2.1 ["A -> B", "A -> C"] "A" "B" (by decide),
   C9_ingestion_edges.2.2 ["A -> B", "A -> C"] "A" "C" (by decide)⟩

/-! ### C7: `cumulate` error handling

Characterisation of the `get_values` fold, termination of the
downstream walk on acyclic networks, and the claim theorem. -/

theorem gvFold_strict_error_iff (var : String) (nds : List Node)
    (vals0 : String → Option Int) :
    (∃ e, nds.foldlM (gvStep var false) vals0 = Except.error e) ↔
      ∃ nd ∈ nds, ((nd.attrs var).bind NodeAttr.read_value) = none := by
  induction nds generalizing vals0 with
  | nil => simp [List.foldlM_nil, pure, Except.pure]
  | cons nd nds ih =>
    rw [List.foldlM_cons]
    cases hat : nd.attrs var with
    | none =>
      refine iff_of_true ⟨missingMsg nd.name var, ?_⟩
        ⟨nd, List.mem_cons_self nd nds, by simp [hat]⟩
      have hstep : gvStep var false vals0 nd
          = Except.error (missingMsg nd.name var) := by
        simp [gvStep, hat]
      rw [hstep]
      rfl
    | some a =>
      cases hrv : a.read_value with
      | none =>
        refine iff_of_true ⟨parseMsg nd.name var, ?_⟩
          ⟨nd, List.mem_cons_self nd nds, by simp [hat, hrv]⟩
        have hstep : gvStep var false vals0 nd
            = Except.error (parseMsg nd.name var) := by
          simp [gvStep, hat, hrv]
        rw [hstep]
        rfl
      | some v =>
        have hstep : gvStep var false vals0 nd
            = pure (fun k => if k = nd.name then some v else vals0 k) := by
          simp [gvStep, hat, hrv]
        rw [hstep, pure_bind, ih]
        constructor
        · rintro ⟨nd2, hm, hb⟩
          exact ⟨nd2, List.mem_cons_of_mem nd hm, hb⟩
        · rintro ⟨nd2, hm, hb⟩
          rcases List.mem_cons.mp hm with he | hm2
          · subst he
            rw [hat] at hb
            simp [hrv] at hb
          · exact ⟨nd2, hm2, hb⟩

theorem gvFold_strict_error_msg (var : String) (nds : List Node)
    (vals0 : String → Option Int) (e : String)
    (h : nds.foldlM (gvStep var false) vals0 = Except.error e) :
    ∃ nd ∈ nds,
      (nd.attrs var = none ∧ e = missingMsg nd.name var) ∨
        (∃ a, nd.attrs var = some a ∧ a.read_value = none ∧
          e = parseMsg nd.name var) := by
  induction nds generalizing vals0 with
  | nil => simp [List.foldlM_nil, pure, Except.pure] at h
  | cons nd nds ih =>
    rw [List.foldlM_cons] at h
    cases hat : nd.attrs var with
    | none =>
      have hstep : gvStep var false vals0 nd
          = Except.error (missingMsg nd.name var) := by
        simp [gvStep, hat]
      rw [hstep] at h
      have h2 := Except.error.inj
        (show (Except.error (missingMsg nd.name var) :
          Except String (String → Option Int)) = Except.error e from h)
      exact ⟨nd, List.mem_cons_self nd nds, Or.inl ⟨hat, h2.symm⟩⟩
    | some a =>
      cases hrv : a.read_value with
      | none =>
        have hstep : gvStep var false vals0 nd
            = Except.error (parseMsg nd.name var) := by
          simp [gvStep, hat, hrv]
        rw [hstep] at h
        have h2 := Except.error.inj
          (show (Except.error (parseMsg nd.name var) :
            Except String (String → Option Int)) = Except.error e from h)
        exact ⟨nd, List.mem_cons_self nd nds,
          Or.inr ⟨a, hat, hrv, h2.symm⟩⟩
      | some v =>
        have hstep : gvStep var false vals0 nd
            = pure (fun k => if k = nd.name then some v else vals0 k) := by
          simp [gvStep, hat, hrv]
        rw [hstep, pure_bind] at h
        obtain ⟨nd2, hm, hc⟩ := ih _ h
        exact ⟨nd2, List.mem_cons_of_mem nd hm, hc⟩

theorem gvFold_safe_ok (var : String) (nds : List Node)
    (vals0 : String → Option Int) :
    ∃ vals, nds.foldlM (gvStep var true) vals0 = Except.ok vals ∧
      (∀ nd ∈ nds, (vals nd.name).isSome) ∧
      (∀ k, (vals0 k).isSome → (vals k).isSome) := by
  induction nds generalizing vals0 with
  | nil =>
    exact ⟨vals0, rfl, by simp, fun k h => h⟩
  | cons nd nds ih =>
    obtain ⟨vals, hf, hmem, hmono⟩ := ih fun k =>
      if k = nd.name then some (((nd.attrs var).bind NodeAttr.read_value).getD 0)
      else vals0 k
    refine ⟨vals, ?_, ?_, ?_⟩
    · rw [List.foldlM_cons]
      have hstep : gvStep var true vals0 nd = pure fun k =>
          if k = nd.name
          then some (((nd.attrs var).bind NodeAttr.read_value).getD 0)
          else vals0 k := by
        simp [gvStep]
      rw [hstep, pure_bind]
      exact hf
    · intro nd2 hm
      rcases List.mem_cons.mp hm with he | hm2
      · subst he
        apply hmono
        simp
      · exact hmem nd2 hm2
    · intro k hk
      apply hmono
      by_cases hkn : k = nd.name <;> simp [hkn, hk]

theorem gvFold_strict_ok (var : String) (nds : List Node)
    (vals0 : String → Option Int) :
    (∀ nd ∈ nds, ((nd.attrs var).bind NodeAttr.read_value) ≠ none) →
    ∃ vals, nds.foldlM (gvStep var false) vals0 = Except.ok vals ∧
      (∀ nd ∈ nds, (vals nd.name).isSome) ∧
      (∀ k, (vals0 k).isSome → (vals k).isSome) := by
  induction nds generalizing vals0 with
  | nil =>
    exact fun _ => ⟨vals0, rfl, by simp, fun k h => h⟩
  | cons nd nds ih =>
    intro hall
    have hnd := hall nd (List.mem_cons_self nd nds)
    cases hat : nd.attrs var with
    | none =>
      rw [hat] at hnd
      simp at hnd
    | some a =>
      cases hrv : a.read_value with
      | none =>
        rw [hat] at hnd
        simp [hrv] at hnd
      | some v =>
        obtain ⟨vals, hf, hmem, hmono⟩ :=
          ih (fun k => if k = nd.name then some v else vals0 k)
            (fun nd2 hm => hall nd2 (List.mem_cons_of_mem nd hm))
        refine ⟨vals, ?_, ?_, ?_⟩
        · rw [List.foldlM_cons]
          have hstep : gvStep var false vals0 nd
              = pure (fun k => if k = nd.name then some v else vals0 k) := by
            simp [gvStep, hat, hrv]
          rw [hstep, pure_bind]
          exact hf
        · intro nd2 hm
          rcases List.mem_cons.mp hm with he | hm2
          · subst he
            apply hmono
            simp
          · exact hmem nd2 hm2
        · intro k hk
          apply hmono
          by_cases hkn : k = nd.name <;> simp [hkn, hk]

theorem outIterN_add (net : Network) (a b i : Nat) :
    net.outIterN (a + b) i = (net.outIterN a i).bind (net.outIterN b) := by
  induction a generalizing i with
  | zero => simp [Network.outIterN]
  | succ a ih =>
    rw [Nat.succ_add]
    show (net.outStep i).bind (net.outIterN (a + b))
      = ((net.outStep i).bind (net.outIterN a)).bind (net.outIterN b)
    cases net.outStep i with
    | none => rfl
    | some j =>
      exact ih j

theorem walkAdd_ok (net : Network) (v : Int)
    (hout : ∀ i < net.nodes.length, ∀ j, net.outStep i = some j →
      j < net.nodes.length) :
    ∀ (fuel : Nat) (out : Option Nat) (vals : String → Option Int),
      (∀ nd ∈ net.nodes, (vals nd.name).isSome) →
      (out = none ∨ ∃ o, out = some o ∧ o < net.nodes.length ∧
        net.outIterN fuel o = none) →
      ∃ vals2, walkAdd net v fuel vals out = some vals2 ∧
        (∀ nd ∈ net.nodes, (vals2 nd.name).isSome) := by
  intro fuel
  induction fuel with
  | zero =>
    intro out vals hnames hch
    rcases hch with h | ⟨o, ho, -, hit⟩
    · subst h
      exact ⟨vals, rfl, hnames⟩
    · exact absurd hit (by simp [Network.outIterN])
  | succ fuel ih =>
    intro out vals hnames hch
    rcases hch with h | ⟨o, ho, hlt, hit⟩
    · subst h
      exact ⟨vals, rfl, hnames⟩
    · subst ho
      obtain ⟨nd, hnd⟩ : ∃ nd, net.nodes[o]? = some nd :=
        ⟨net.nodes[o], List.getElem?_eq_getElem hlt⟩
      have hmem : nd ∈ net.nodes := by
        have := List.getElem?_eq_getElem hlt
        rw [this] at hnd
        rw [← Option.some.inj hnd]
        exact List.getElem_mem hlt
      obtain ⟨cur, hcur⟩ := Option.isSome_iff_exists.mp (hnames nd hmem)
      have hstep : net.outStep o = nd.output := by
        simp [Network.outStep, hnd]
      have hch2 : nd.output = none ∨ ∃ o2, nd.output = some o2 ∧
          o2 < net.nodes.length ∧ net.outIterN fuel o2 = none := by
        cases hop : nd.output with
        | none => exact Or.inl rfl
        | some o2 =>
          refine Or.inr ⟨o2, rfl, hout o hlt o2 (by rw [hstep, hop]), ?_⟩
          have hred : net.outIterN (fuel + 1) o = net.outIterN fuel o2 := by
            show (net.outStep o).bind (net.outIterN fuel) = _
            rw [hstep, hop]
            rfl
          rw [← hred]
          exact hit
      have hnames2 : ∀ nd2 ∈ net.nodes,
          ((fun k => if k = nd.name then some (cur + v) else vals k)
            nd2.name).isSome := by
        intro nd2 hm
        by_cases hk : nd2.name = nd.name
        · simp [hk]
        · simp only [hk, if_neg, if_false]
          exact hnames nd2 hm
      obtain ⟨vals2, hw, hn2⟩ := ih nd.output
        (fun k => if k = nd.name then some (cur + v) else vals k) hnames2 hch2
      refine ⟨vals2, ?_, hn2⟩
      have hred : walkAdd net v (fuel + 1) vals (some o)
          = walkAdd net v fuel
            (fun k => if k = nd.name then some (cur + v) else vals k)
            nd.output := by
        simp only [walkAdd, hnd, hcur]
      exact hred.trans hw

theorem walkFold_ok (net : Network)
    (hout : ∀ i < net.nodes.length, ∀ j, net.outStep i = some j →
      j < net.nodes.length)
    (hacyc : net.Acyclic) :
    ∀ (nds : List Node) (vals0 : String → Option Int),
      (∀ nd ∈ net.nodes, (vals0 nd.name).isSome) →
      (∀ nd ∈ nds, nd ∈ net.nodes) →
      ∃ vals, nds.foldlM (walkAllStep net) vals0 = some vals ∧
        (∀ nd ∈ net.nodes, (vals nd.name).isSome) := by
  intro nds
  induction nds with
  | nil =>
    intro vals0 h _
    exact ⟨vals0, rfl, h⟩
  | cons nd nds ih =>
    intro vals0 hnames hsub
    have hmem : nd ∈ net.nodes := hsub nd (List.mem_cons_self nd nds)
    obtain ⟨cur, hcur⟩ := Option.isSome_iff_exists.mp (hnames nd hmem)
    have hch : nd.output = none ∨ ∃ o, nd.output = some o ∧
        o < net.nodes.length ∧ net.outIterN (net.nodes.length + 1) o = none := by
      cases hop : nd.output with
      | none => exact Or.inl rfl
      | some o =>
        have holt : o < net.nodes.length := by
          obtain ⟨i, hi, hieq⟩ := List.getElem_of_mem hmem
          have hso : net.outStep i = some o := by
            simp [Network.outStep, List.getElem?_eq_getElem hi, hieq, hop]
          exact hout i hi o hso
        have h1 : net.outIterN net.nodes.length o = none := hacyc o holt
        have h2 : net.outIterN (net.nodes.length + 1) o = none := by
          rw [outIterN_add net net.nodes.length 1 o, h1]
          rfl
        exact Or.inr ⟨o, rfl, holt, h2⟩
    obtain ⟨vals1, hw, hn1⟩ :=
      walkAdd_ok net cur hout (net.nodes.length + 1) nd.output vals0 hnames hch
    obtain ⟨vals, hf, hn⟩ :=
      ih vals1 hn1 (fun nd2 hm => hsub nd2 (List.mem_cons_of_mem nd hm))
    refine ⟨vals, ?_, hn⟩
    rw [List.foldlM_cons]
    have hws : walkAllStep net vals0 nd = some vals1 := by
      unfold walkAllStep
      rw [hcur]
      exact hw
    rw [hws]
    exact hf

theorem setNodeAttr_length (net : Network) (i : Nat) (key : String)
    (v : NodeAttr) :
    (net.setNodeAttr i key v).nodes.length = net.nodes.length := by
  unfold Network.setNodeAttr
  cases net.nodes[i]? <;> simp

theorem setNodeAttr_name (net : Network) (i : Nat) (key : String)
    (v : NodeAttr) (j : Nat) :
    ((net.setNodeAttr i key v).nodes[j]?).map Node.name
      = (net.nodes[j]?).map Node.name := by
  unfold Network.setNodeAttr
  cases hi : net.nodes[i]? with
  | none => rfl
  | some nd =>
    have hilt : i < net.nodes.length := by
      rcases List.getElem?_eq_some.mp hi with ⟨h, -⟩
      exact h
    by_cases hj : j = i
    · subst hj
      rw [List.getElem?_set_self hilt, hi]
      rfl
    · rw [List.getElem?_set_ne (by omega)]

theorem setValues_ok (net : Network) (var : String)
    (vals : String → Option Int)
    (hnames : ∀ nd ∈ net.nodes, (vals nd.name).isSome) :
    ∃ net2, setValues net var vals = some net2 := by
  suffices h : ∀ (l : List Nat) (acc : Network),
      (∀ i ∈ l, i < net.nodes.length) →
      acc.nodes.length = net.nodes.length →
      (∀ j : Nat, (acc.nodes[j]?).map Node.name
        = (net.nodes[j]?).map Node.name) →
      ∃ net2, l.foldlM
        (fun (acc : Network) (i : Nat) =>
          (acc.nodes[i]?).bind fun nd =>
            (vals nd.name).map fun v =>
              acc.setNodeAttr i ("cum_" ++ var) (.value v)) acc = some net2 by
    exact h (List.range net.nodes.length) net
      (fun i hi => List.mem_range.mp hi) rfl (fun _ => rfl)
  intro l
  induction l with
  | nil =>
    intro acc _ _ _
    exact ⟨acc, rfl⟩
  | cons i l ih =>
    intro acc hlt hlen hnm
    have hilt : i < acc.nodes.length := by
      rw [hlen]
      exact hlt i (List.mem_cons_self i l)
    obtain ⟨nd, hnd⟩ : ∃ nd, acc.nodes[i]? = some nd :=
      ⟨acc.nodes[i], List.getElem?_eq_getElem hilt⟩
    have hndnet : ∃ nd2, net.nodes[i]? = some nd2 ∧ nd2.name = nd.name := by
      have := hnm i
      rw [hnd] at this
      cases hn2 : net.nodes[i]? with
      | none =>
        rw [hn2] at this
        simp at this
      | some nd2 =>
        rw [hn2] at this
        exact ⟨nd2, rfl, (Option.some.inj this).symm⟩
    obtain ⟨nd2, hnd2, hname⟩ := hndnet
    have hmem2 : nd2 ∈ net.nodes := by
      rcases List.getElem?_eq_some.mp hnd2 with ⟨hl, he⟩
      rw [← he]
      exact List.getElem_mem hl
    obtain ⟨vv, hvv⟩ := Option.isSome_iff_exists.mp (hnames nd2 hmem2)
    have hvnd : vals nd.name = some vv := by
      rw [← hname]
      exact hvv
    obtain ⟨net2, hf⟩ := ih (acc.setNodeAttr i ("cum_" ++ var) (.value vv))
      (fun j hj => hlt j (List.mem_cons_of_mem i hj))
      (by rw [setNodeAttr_length, hlen])
      (fun j => by rw [setNodeAttr_name]; exact hnm j)
    refine ⟨net2, ?_⟩
    rw [List.foldlM_cons, hnd]
    show (Option.map _ (vals nd.name)).bind _ = some net2
    rw [hvnd]
    exact hf

theorem strEndsWithChar_append_q (v : String) :
    strEndsWithChar (v ++ "?") '?' = true := by
  unfold strEndsWithChar
  rw [String.data_append]
  simp [List.getLast?_append]

theorem strDropLast_append_q (v : String) : strDropLast (v ++ "?") = v := by
  unfold strDropLast
  rw [String.data_append]
  rw [show ("?" : String).data = ['?'] from rfl, List.dropLast_concat]

theorem cumulateVar_strict (net : Network) (v : String)
    (hv : strEndsWithChar v '?' = false) :
    cumulateVar net v =
      match getValues net v false with
      | .error e => some (.error e)
      | .ok vals0 =>
        match net.nodes.foldlM (walkAllStep net) vals0 with
        | none => none
        | some vals => (setValues net v vals).map Except.ok := by
  unfold cumulateVar
  rw [hv]
  rfl

theorem cumulateVar_safe (net : Network) (v : String) :
    cumulateVar net (v ++ "?") =
      match getValues net v true with
      | .error e => some (.error e)
      | .ok vals0 =>
        match net.nodes.foldlM (walkAllStep net) vals0 with
        | none => none
        | some vals => (setValues net v vals).map Except.ok := by
  unfold cumulateVar
  rw [strEndsWithChar_append_q]
  rw [if_pos rfl, strDropLast_append_q]

theorem getValues_strict_error_iff (net : Network) (v : String) :
    (∃ e, getValues net v false = Except.error e) ↔
      ∃ nd ∈ net.nodes, ((nd.attrs v).bind NodeAttr.read_value) = none :=
  gvFold_strict_error_iff v net.nodes (fun _ => none)

theorem cumulateGo_single (net : Network) (v : String) :
    cumulateGo net [v] =
      match cumulateVar net v with
      | none => none
      | some (.error e) => some (net, some e)
      | some (.ok net2) => some (net2, none) := by
  unfold cumulateGo
  cases cumulateVar net v with
  | none => rfl
  | some x =>
    cases x with
    | error e => rfl
    | ok n2 => rfl

theorem cumulateVar_strict_of_error (net : Network) (v e : String)
    (hv : strEndsWithChar v '?' = false)
    (hge : getValues net v false = Except.error e) :
    cumulateVar net v = some (.error e) := by
  rw [cumulateVar_strict net v hv, hge]

theorem cumulateVar_strict_of_ok (net : Network) (v : String)
    (vals0 : String → Option Int)
    (hv : strEndsWithChar v '?' = false)
    (hge : getValues net v false = Except.ok vals0) :
    cumulateVar net v =
      match net.nodes.foldlM (walkAllStep net) vals0 with
      | none => none
      | some vals => (setValues net v vals).map Except.ok := by
  rw [cumulateVar_strict net v hv, hge]

theorem cumulate_single_of_error (net : Network) (v e : String)
    (hne : ¬net.nodes.isEmpty = true)
    (hcv : cumulateVar net v = some (.error e)) :
    net.cumulate [v] = some (net, some e) := by
  unfold Network.cumulate
  rw [if_neg hne, cumulateGo_single, hcv]

theorem cumulate_single_of_none (net : Network) (v : String)
    (hne : ¬net.nodes.isEmpty = true)
    (hcv : cumulateVar net v = none) :
    net.cumulate [v] = none := by
  unfold Network.cumulate
  rw [if_neg hne, cumulateGo_single, hcv]

theorem cumulate_single_of_ok (net net2 : Network) (v : String)
    (hne : ¬net.nodes.isEmpty = true)
    (hcv : cumulateVar net v = some (.ok net2)) :
    net.cumulate [v] = some (net2, none) := by
  unfold Network.cumulate
  rw [if_neg hne, cumulateGo_single, hcv]

/-- In strict mode, once `get_values` succeeds, `cumulate` cannot
return an error: it either panics in the walk or succeeds. -/
theorem cumulate_strict_no_error_of_ok (net : Network) (v : String)
    (vals0 : String → Option Int)
    (hv : strEndsWithChar v '?' = false)
    (hne : ¬net.nodes.isEmpty = true)
    (hge : getValues net v false = Except.ok vals0) :
    net.cumulate [v] = none ∨
      ∃ net2, net.cumulate [v] = some (net2, none) := by
  have hcv := cumulateVar_strict_of_ok net v vals0 hv hge
  cases hw : net.nodes.foldlM (walkAllStep net) vals0 with
  | none =>
    rw [hw] at hcv
    exact Or.inl (cumulate_single_of_none net v hne hcv)
  | some vals =>
    rw [hw] at hcv
    have hcv2 : cumulateVar net v = (setValues net v vals).map Except.ok := hcv
    cases hs : setValues net v vals with
    | none =>
      rw [hs] at hcv2
      exact Or.inl (cumulate_single_of_none net v hne hcv2)
    | some net2 =>
      rw [hs] at hcv2
      exact Or.inr ⟨net2, cumulate_single_of_ok net net2 v hne hcv2⟩

/-- C7: in strict mode (no trailing `?`), `cumulate` on one attribute
returns an error exactly when some node lacks the attribute or has a
non-numeric value (first conjunct); when it errors, the network is left
untouched — no `cum_` value was stored — and the message is one of the
two `get_values` messages naming the offending node and the attribute
(second conjunct); in safe mode (`?` suffix) it never returns an error
on a well-formed acyclic network (third conjunct). -/
theorem C7_cumulate_error_handling (net : Network) (v : String)
    (hv : strEndsWithChar v '?' = false) :
    ((∃ net2 e, net.cumulate [v] = some (net2, some e)) ↔
        ∃ nd ∈ net.nodes, ((nd.attrs v).bind NodeAttr.read_value) = none) ∧
      (∀ net2 e, net.cumulate [v] = some (net2, some e) →
        net2 = net ∧ ∃ nd ∈ net.nodes,
          (nd.attrs v = none ∧ e = missingMsg nd.name v) ∨
            (∃ a, nd.attrs v = some a ∧ a.read_value = none ∧
              e = parseMsg nd.name v)) ∧
      ((∀ i < net.nodes.length, ∀ j, net.outStep i = some j →
          j < net.nodes.length) → net.Acyclic →
        ∃ net2, net.cumulate [v ++ "?"] = some (net2, none)) := by
  refine ⟨?_, ?_, ?_⟩
  · by_cases hemp : net.nodes.isEmpty
    · have hnil : net.nodes = [] := List.isEmpty_iff.mp hemp
      constructor
      · rintro ⟨net2, e, he⟩
        unfold Network.cumulate at he
        rw [if_pos hemp] at he
        exact absurd (Option.some.inj he) (by simp)
      · rintro ⟨nd, hm, -⟩
        rw [hnil] at hm
        simp at hm
    · constructor
      · rintro ⟨net2, e, he⟩
        refine (getValues_strict_error_iff net v).mp ?_
        cases hge : getValues net v false with
        | error e2 => exact ⟨e2, rfl⟩
        | ok vals0 =>
          rcases cumulate_strict_no_error_of_ok net v vals0 hv hemp hge with
            hn | ⟨net3, hs⟩
          · rw [hn] at he
            cases he
          · rw [hs] at he
            exact absurd (congrArg Prod.snd (Option.some.inj he)) (by simp)
      · intro hbad
        obtain ⟨e, hge⟩ := (getValues_strict_error_iff net v).mpr hbad
        exact ⟨net, e, cumulate_single_of_error net v e hemp
          (cumulateVar_strict_of_error net v e hv hge)⟩
  · intro net2 e he
    by_cases hemp : net.nodes.isEmpty
    · unfold Network.cumulate at he
      rw [if_pos hemp] at he
      exact absurd (Option.some.inj he) (by simp)
    · cases hge : getValues net v false with
      | error e2 =>
        have hs := cumulate_single_of_error net v e2 hemp
          (cumulateVar_strict_of_error net v e2 hv hge)
        rw [hs] at he
        have hp := Option.some.inj he
        have h1 : net = net2 := congrArg Prod.fst hp
        have h2 : e2 = e := Option.some.inj (congrArg Prod.snd hp)
        refine ⟨h1.symm, ?_⟩
        rw [← h2]
        exact gvFold_strict_error_msg v net.nodes (fun _ => none) e2 hge
      | ok vals0 =>
        rcases cumulate_strict_no_error_of_ok net v vals0 hv hemp hge with
          hn | ⟨net3, hs⟩
        · rw [hn] at he
          cases he
        · rw [hs] at he
          exact absurd (congrArg Prod.snd (Option.some.inj he)) (by simp)
  · intro hout hacyc
    by_cases hemp : net.nodes.isEmpty
    · refine ⟨net, ?_⟩
      unfold Network.cumulate
      rw [if_pos hemp]
    · obtain ⟨vals0, hge, hn0, -⟩ :=
        gvFold_safe_ok v net.nodes (fun _ => none)
      obtain ⟨vals, hw, hn⟩ :=
        walkFold_ok net hout hacyc net.nodes vals0 hn0 (fun nd h => h)
      obtain ⟨net2, hs⟩ := setValues_ok net v vals hn
      have hcv : cumulateVar net (v ++ "?") = some (.ok net2) := by
        rw [cumulateVar_safe net v,
          show getValues net v true = Except.ok vals0 from hge]
        show (match net.nodes.foldlM (walkAllStep net) vals0 with
          | none => none
          | some vals => (setValues net v vals).map Except.ok)
            = some (Except.ok net2)
        rw [hw]
        show (setValues net v vals).map Except.ok = some (Except.ok net2)
        rw [hs]
        rfl
      exact ⟨net2, cumulate_single_of_ok net net2 (v ++ "?") hemp hcv⟩

/-- Bridge from the decidable bounded form of the output-range
condition to the form the C7 theorem takes. -/
theorem outRange_of_toList (net : Network)
    (h : ∀ i < net.nodes.length, ∀ j ∈ (net.outStep i).toList,
      j < net.nodes.length) :
    ∀ i < net.nodes.length, ∀ j, net.outStep i = some j →
      j < net.nodes.length :=
  fun i hi j hj => h i hi j (by simp [hj])

/-- C7 (witness): on the concrete chain `A -> B` where only `A`
carries `v` (the raw ingested network), strict-mode `cumulate` returns
an error — node `B` lacks the attribute — while safe-mode `cumulate`
succeeds with no error. -/
theorem C7_cumulate_error_handling_witness :
    (∃ net2 e, (Network.fromLinesRaw ["A -> B"] vAFiles).cumulate ["v"]
        = some (net2, some e)) ∧
      ∃ net2, (Network.fromLinesRaw ["A -> B"] vAFiles).cumulate ["v" ++ "?"]
        = some (net2, none) :=
  have hdef := C7_cumulate_error_handling
    (Network.fromLinesRaw ["A -> B"] vAFiles) "v" (by decide)
  ⟨hdef.1.mpr (by decide),
   hdef.2.2 (outRange_of_toList _ (by decide)) (by decide)⟩

/-! ### C2: the `reindex` traversal matches the spec's description

The code designates the same-level input by equality with the last
element of the sorted input list; the spec designates it by position.
On duplicate-free input lists the two coincide, so the two traversals
are equal step by step. -/

theorem insertSorted_perm (key : Nat → Nat) (x : Nat) (l : List Nat) :
    (insertSorted key x l).Perm (x :: l) := by
  induction l with
  | nil => exact List.Perm.refl _
  | cons y ys ih =>
    unfold insertSorted
    by_cases h : key x ≤ key y
    · rw [if_pos h]
    · rw [if_neg h]
      exact ((ih.cons y).trans (List.Perm.swap x y ys)).symm.symm

theorem stableSortBy_perm (key : Nat → Nat) (l : List Nat) :
    (stableSortBy key l).Perm l := by
  induction l with
  | nil => exact List.Perm.refl _
  | cons x xs ih =>
    exact (insertSorted_perm key x (stableSortBy key xs)).trans (ih.cons x)

theorem stableSortBy_nodup (key : Nat → Nat) (l : List Nat) (h : l.Nodup) :
    (stableSortBy key l).Nodup :=
  (stableSortBy_perm key l).nodup_iff.mpr h

/-- Mapping over `range (n + 1)` peels the first index. -/
theorem map_range_succ {α : Type} (g : Nat → α) (n : Nat) :
    (List.range (n + 1)).map g = g 0 :: (List.range n).map (g ∘ Nat.succ) := by
  rw [List.range_succ_eq_map, List.map_cons, List.map_map]

/-- On a duplicate-free list, tagging the last element by value and
tagging the last position coincide. -/
theorem enqueue_entries_eq (l : List Nat) (hl : l.Nodup) (lvl : Nat) :
    codeEntries l lvl = specEntries l lvl := by
  unfold codeEntries specEntries
  induction l with
  | nil => rfl
  | cons x xs ih =>
    cases xs with
    | nil => simp [List.range_succ]
    | cons y ys =>
      have hx : x ∉ y :: ys := (List.nodup_cons.mp hl).1
      have htail := ih (List.nodup_cons.mp hl).2
      have hne : ¬(some x = (y :: ys).getLast?) := fun he =>
        hx (List.mem_of_mem_getLast? he.symm)
      rw [List.map_cons, List.getLast?_cons_cons, if_neg hne]
      rw [show (x :: y :: ys).length = (y :: ys).length + 1 from rfl]
      rw [map_range_succ]
      have hhead : (x, lvl + 1)
          = ((x :: y :: ys).getD 0 0,
            if (0 : Nat) = (y :: ys).length + 1 - 1 then lvl else lvl + 1) := by
        have h0 : ¬((0 : Nat) = (y :: ys).length + 1 - 1) := by
          simp only [List.length_cons]
          omega
        rw [if_neg h0]
        rfl
      have htail2 : List.map
          (fun inp =>
            (inp, if some inp = (y :: ys).getLast? then lvl else lvl + 1))
          (y :: ys)
          = List.map ((fun k => ((x :: y :: ys).getD k 0,
              if k = (y :: ys).length + 1 - 1 then lvl else lvl + 1))
              ∘ Nat.succ)
            (List.range (y :: ys).length) := by
        rw [htail]
        apply List.map_congr_left
        intro k hk
        show ((y :: ys).getD k 0,
            if k = (y :: ys).length - 1 then lvl else lvl + 1)
          = ((y :: ys).getD k 0,
            if Nat.succ k = (y :: ys).length + 1 - 1 then lvl else lvl + 1)
        have hc : (k = (y :: ys).length - 1)
            ↔ (Nat.succ k = (y :: ys).length + 1 - 1) := by
          simp only [List.length_cons]
          omega
        exact congrArg (fun z => ((y :: ys).getD k 0, z)) (if_congr hc rfl rfl)
      rw [← hhead, htail2]

theorem setNodeInputs_inputs_nodup (net : Network) (n : Nat)
    (sorted : List Nat)
    (hinv : ∀ nd ∈ net.nodes, nd.inputs.Nodup) (hs : sorted.Nodup) :
    ∀ nd ∈ (net.setNodeInputs n sorted).nodes, nd.inputs.Nodup := by
  unfold Network.setNodeInputs
  cases hx : net.nodes[n]? with
  | none => exact hinv
  | some nd0 =>
    intro nd hm
    rcases List.mem_or_eq_of_mem_set hm with hm2 | he
    · exact hinv nd hm2
    · rw [he]
      exact hs

theorem reindexGo_none (net : Network) (fuel : Nat) (all : List Nat)
    (n level : Nat) (qrest visited : List (Nat × Nat))
    (hnd : net.nodes[n]? = none) :
    reindexGo net (fuel + 1) all ((n, level) :: qrest) visited = none := by
  show (match net.nodes[n]? with
    | none => none
    | some nd =>
      if nd.inputs = [] then
        reindexGo net fuel (all.erase n) qrest (visited ++ [(n, level)])
      else
        match ordersOf net with
        | none => none
        | some orders =>
          reindexGo (net.setNodeInputs n
              (stableSortBy (fun i => orders.getD i 0) nd.inputs)) fuel
            (eraseFirsts (all.erase n)
              (codeEntries (stableSortBy (fun i => orders.getD i 0) nd.inputs)
                level))
            (qrest ++ codeEntries
              (stableSortBy (fun i => orders.getD i 0) nd.inputs) level)
            (visited ++ [(n, level)]))
      = none
  rw [hnd]

theorem reindexGo_leaf (net : Network) (fuel : Nat) (all : List Nat)
    (n level : Nat) (qrest visited : List (Nat × Nat)) (nd : Node)
    (hnd : net.nodes[n]? = some nd) (hin : nd.inputs = []) :
    reindexGo net (fuel + 1) all ((n, level) :: qrest) visited
      = reindexGo net fuel (all.erase n) qrest (visited ++ [(n, level)]) := by
  show (match net.nodes[n]? with
    | none => none
    | some nd =>
      if nd.inputs = [] then
        reindexGo net fuel (all.erase n) qrest (visited ++ [(n, level)])
      else
        match ordersOf net with
        | none => none
        | some orders =>
          reindexGo (net.setNodeInputs n
              (stableSortBy (fun i => orders.getD i 0) nd.inputs)) fuel
            (eraseFirsts (all.erase n)
              (codeEntries (stableSortBy (fun i => orders.getD i 0) nd.inputs)
                level))
            (qrest ++ codeEntries
              (stableSortBy (fun i => orders.getD i 0) nd.inputs) level)
            (visited ++ [(n, level)]))
      = reindexGo net fuel (all.erase n) qrest (visited ++ [(n, level)])
  rw [hnd]
  show (if nd.inputs = [] then
      reindexGo net fuel (all.erase n) qrest (visited ++ [(n, level)])
    else
      match ordersOf net with
      | none => none
      | some orders =>
        reindexGo (net.setNodeInputs n
            (stableSortBy (fun i => orders.getD i 0) nd.inputs)) fuel
          (eraseFirsts (all.erase n)
            (codeEntries (stableSortBy (fun i => orders.getD i 0) nd.inputs)
              level))
          (qrest ++ codeEntries
            (stableSortBy (fun i => orders.getD i 0) nd.inputs) level)
          (visited ++ [(n, level)]))
      = reindexGo net fuel (all.erase n) qrest (visited ++ [(n, level)])
  rw [if_pos hin]

theorem reindexGo_noord (net : Network) (fuel : Nat) (all : List Nat)
    (n level : Nat) (qrest visited : List (Nat × Nat)) (nd : Node)
    (hnd : net.nodes[n]? = some nd) (hin : ¬nd.inputs = [])
    (hord : ordersOf net = none) :
    reindexGo net (fuel + 1) all ((n, level) :: qrest) visited = none := by
  show (match net.nodes[n]? with
    | none => none
    | some nd =>
      if nd.inputs = [] then
        reindexGo net fuel (all.erase n) qrest (visited ++ [(n, level)])
      else
        match ordersOf net with
        | none => none
        | some orders =>
          reindexGo (net.setNodeInputs n
              (stableSortBy (fun i => orders.getD i 0) nd.inputs)) fuel
            (eraseFirsts (all.erase n)
              (codeEntries (stableSortBy (fun i => orders.getD i 0) nd.inputs)
                level))
            (qrest ++ codeEntries
              (stableSortBy (fun i => orders.getD i 0) nd.inputs) level)
            (visited ++ [(n, level)]))
      = none
  rw [hnd]
  show (if nd.inputs = [] then
      reindexGo net fuel (all.erase n) qrest (visited ++ [(n, level)])
    else
      match ordersOf net with
      | none => none
      | some orders =>
        reindexGo (net.setNodeInputs n
            (stableSortBy (fun i => orders.getD i 0) nd.inputs)) fuel
          (eraseFirsts (all.erase n)
            (codeEntries (stableSortBy (fun i => orders.getD i 0) nd.inputs)
              level))
          (qrest ++ codeEntries
            (stableSortBy (fun i => orders.getD i 0) nd.inputs) level)
          (visited ++ [(n, level)]))
      = none
  rw [if_neg hin]
  show (match ordersOf net with
    | none => none
    | some orders =>
      reindexGo (net.setNodeInputs n
          (stableSortBy (fun i => orders.getD i 0) nd.inputs)) fuel
        (eraseFirsts (all.erase n)
          (codeEntries (stableSortBy (fun i => orders.getD i 0) nd.inputs)
            level))
        (qrest ++ codeEntries
          (stableSortBy (fun i => orders.getD i 0) nd.inputs) level)
        (visited ++ [(n, level)]))
      = none
  rw [hord]

theorem reindexGo_node (net : Network) (fuel : Nat) (all : List Nat)
    (n level : Nat) (qrest visited : List (Nat × Nat)) (nd : Node)
    (orders : List Nat)
    (hnd : net.nodes[n]? = some nd) (hin : ¬nd.inputs = [])
    (hord : ordersOf net = some orders) :
    reindexGo net (fuel + 1) all ((n, level) :: qrest) visited
      = reindexGo (net.setNodeInputs n
            (stableSortBy (fun i => orders.getD i 0) nd.inputs)) fuel
          (eraseFirsts (all.erase n)
            (codeEntries (stableSortBy (fun i => orders.getD i 0) nd.inputs)
              level))
          (qrest ++ codeEntries
            (stableSortBy (fun i => orders.getD i 0) nd.inputs) level)
          (visited ++ [(n, level)]) := by
  show (match net.nodes[n]? with
    | none => none
    | some nd =>
      if nd.inputs = [] then
        reindexGo net fuel (all.erase n) qrest (visited ++ [(n, level)])
      else
        match ordersOf net with
        | none => none
        | some orders =>
          reindexGo (net.setNodeInputs n
              (stableSortBy (fun i => orders.getD i 0) nd.inputs)) fuel
            (eraseFirsts (all.erase n)
              (codeEntries (stableSortBy (fun i => orders.getD i 0) nd.inputs)
                level))
            (qrest ++ codeEntries
              (stableSortBy (fun i => orders.getD i 0) nd.inputs) level)
            (visited ++ [(n, level)]))
      = _
  rw [hnd]
  show (if nd.inputs = [] then
      reindexGo net fuel (all.erase n) qrest (visited ++ [(n, level)])
    else
      match ordersOf net with
      | none => none
      | some orders =>
        reindexGo (net.setNodeInputs n
            (stableSortBy (fun i => orders.getD i 0) nd.inputs)) fuel
          (eraseFirsts (all.erase n)
            (codeEntries (stableSortBy (fun i => orders.getD i 0) nd.inputs)
              level))
          (qrest ++ codeEntries
            (stableSortBy (fun i => orders.getD i 0) nd.inputs) level)
          (visited ++ [(n, level)]))
      = _
  rw [if_neg hin]
  show (match ordersOf net with
    | none => none
    | some orders =>
      reindexGo (net.setNodeInputs n
          (stableSortBy (fun i => orders.getD i 0) nd.inputs)) fuel
        (eraseFirsts (all.erase n)
          (codeEntries (stableSortBy (fun i => orders.getD i 0) nd.inputs)
            level))
        (qrest ++ codeEntries
          (stableSortBy (fun i => orders.getD i 0) nd.inputs) level)
        (visited ++ [(n, level)]))
      = _
  rw [hord]

theorem reindexSpecGo_none (net : Network) (fuel : Nat) (all : List Nat)
    (n level : Nat) (qrest visited : List (Nat × Nat))
    (hnd : net.nodes[n]? = none) :
    reindexSpecGo net (fuel + 1) all ((n, level) :: qrest) visited = none := by
  show (match net.nodes[n]? with
    | none => none
    | some nd =>
      if nd.inputs = [] then
        reindexSpecGo net fuel (all.erase n) qrest (visited ++ [(n, level)])
      else
        match ordersOf net with
        | none => none
        | some orders =>
          reindexSpecGo (net.setNodeInputs n
              (stableSortBy (fun i => orders.getD i 0) nd.inputs)) fuel
            (eraseFirsts (all.erase n)
              (specEntries (stableSortBy (fun i => orders.getD i 0) nd.inputs)
                level))
            (qrest ++ specEntries
              (stableSortBy (fun i => orders.getD i 0) nd.inputs) level)
            (visited ++ [(n, level)]))
      = none
  rw [hnd]

theorem reindexSpecGo_leaf (net : Network) (fuel : Nat) (all : List Nat)
    (n level : Nat) (qrest visited : List (Nat × Nat)) (nd : Node)
    (hnd : net.nodes[n]? = some nd) (hin : nd.inputs = []) :
    reindexSpecGo net (fuel + 1) all ((n, level) :: qrest) visited
      = reindexSpecGo net fuel (all.erase n) qrest (visited ++ [(n, level)]) := by
  show (match net.nodes[n]? with
    | none => none
    | some nd =>
      if nd.inputs = [] then
        reindexSpecGo net fuel (all.erase n) qrest (visited ++ [(n, level)])
      else
        match ordersOf net with
        | none => none
        | some orders =>
          reindexSpecGo (net.setNodeInputs n
              (stableSortBy (fun i => orders.getD i 0) nd.inputs)) fuel
            (eraseFirsts (all.erase n)
              (specEntries (stableSortBy (fun i => orders.getD i 0) nd.inputs)
                level))
            (qrest ++ specEntries
              (stableSortBy (fun i => orders.getD i 0) nd.inputs) level)
            (visited ++ [(n, level)]))
      = reindexSpecGo net fuel (all.erase n) qrest (visited ++ [(n, level)])
  rw [hnd]
  show (if nd.inputs = [] then
      reindexSpecGo net fuel (all.erase n) qrest (visited ++ [(n, level)])
    else
      match ordersOf net with
      | none => none
      | some orders =>
        reindexSpecGo (net.setNodeInputs n
            (stableSortBy (fun i => orders.getD i 0) nd.inputs)) fuel
          (eraseFirsts (all.erase n)
            (specEntries (stableSortBy (fun i => orders.getD i 0) nd.inputs)
              level))
          (qrest ++ specEntries
            (stableSortBy (fun i => orders.getD i 0) nd.inputs) level)
          (visited ++ [(n, level)]))
      = reindexSpecGo net fuel (all.erase n) qrest (visited ++ [(n, level)])
  rw [if_pos hin]

theorem reindexSpecGo_noord (net : Network) (fuel : Nat) (all : List Nat)
    (n level : Nat) (qrest visited : List (Nat × Nat)) (nd : Node)
    (hnd : net.nodes[n]? = some nd) (hin : ¬nd.inputs = [])
    (hord : ordersOf net = none) :
    reindexSpecGo net (fuel + 1) all ((n, level) :: qrest) visited = none := by
  show (match net.nodes[n]? with
    | none => none
    | some nd =>
      if nd.inputs = [] then
        reindexSpecGo net fuel (all.erase n) qrest (visited ++ [(n, level)])
      else
        match ordersOf net with
        | none => none
        | some orders =>
          reindexSpecGo (net.setNodeInputs n
              (stableSortBy (fun i => orders.getD i 0) nd.inputs)) fuel
            (eraseFirsts (all.erase n)
              (specEntries (stableSortBy (fun i => orders.getD i 0) nd.inputs)
                level))
            (qrest ++ specEntries
              (stableSortBy (fun i => orders.getD i 0) nd.inputs) level)
            (visited ++ [(n, level)]))
      = none
  rw [hnd]
  show (if nd.inputs = [] then
      reindexSpecGo net fuel (all.erase n) qrest (visited ++ [(n, level)])
    else
      match ordersOf net with
      | none => none
      | some orders =>
        reindexSpecGo (net.setNodeInputs n
            (stableSortBy (fun i => orders.getD i 0) nd.inputs)) fuel
          (eraseFirsts (all.erase n)
            (specEntries (stableSortBy (fun i => orders.getD i 0) nd.inputs)
              level))
          (qrest ++ specEntries
            (stableSortBy (fun i => orders.getD i 0) nd.inputs) level)
          (visited ++ [(n, level)]))
      = none
  rw [if_neg hin]
  show (match ordersOf net with
    | none => none
    | some orders =>
      reindexSpecGo (net.setNodeInputs n
          (stableSortBy (fun i => orders.getD i 0) nd.inputs)) fuel
        (eraseFirsts (all.erase n)
          (specEntries (stableSortBy (fun i => orders.getD i 0) nd.inputs)
            level))
        (qrest ++ specEntries
          (stableSortBy (fun i => orders.getD i 0) nd.inputs) level)
        (visited ++ [(n, level)]))
      = none
  rw [hord]

theorem reindexSpecGo_node (net : Network) (fuel : Nat) (all : List Nat)
    (n level : Nat) (qrest visited : List (Nat × Nat)) (nd : Node)
    (orders : List Nat)
    (hnd : net.nodes[n]? = some nd) (hin : ¬nd.inputs = [])
    (hord : ordersOf net = some orders) :
    reindexSpecGo net (fuel + 1) all ((n, level) :: qrest) visited
      = reindexSpecGo (net.setNodeInputs n
            (stableSortBy (fun i => orders.getD i 0) nd.inputs)) fuel
          (eraseFirsts (all.erase n)
            (specEntries (stableSortBy (fun i => orders.getD i 0) nd.inputs)
              level))
          (qrest ++ specEntries
            (stableSortBy (fun i => orders.getD i 0) nd.inputs) level)
          (visited ++ [(n, level)]) := by
  show (match net.nodes[n]? with
    | none => none
    | some nd =>
      if nd.inputs = [] then
        reindexSpecGo net fuel (all.erase n) qrest (visited ++ [(n, level)])
      else
        match ordersOf net with
        | none => none
        | some orders =>
          reindexSpecGo (net.setNodeInputs n
              (stableSortBy (fun i => orders.getD i 0) nd.inputs)) fuel
            (eraseFirsts (all.erase n)
              (specEntries (stableSortBy (fun i => orders.getD i 0) nd.inputs)
                level))
            (qrest ++ specEntries
              (stableSortBy (fun i => orders.getD i 0) nd.inputs) level)
            (visited ++ [(n, level)]))
      = _
  rw [hnd]
  show (if nd.inputs = [] then
      reindexSpecGo net fuel (all.erase n) qrest (visited ++ [(n, level)])
    else
      match ordersOf net with
      | none => none
      | some orders =>
        reindexSpecGo (net.setNodeInputs n
            (stableSortBy (fun i => orders.getD i 0) nd.inputs)) fuel
          (eraseFirsts (all.erase n)
            (specEntries (stableSortBy (fun i => orders.getD i 0) nd.inputs)
              level))
          (qrest ++ specEntries
            (stableSortBy (fun i => orders.getD i 0) nd.inputs) level)
          (visited ++ [(n, level)]))
      = _
  rw [if_neg hin]
  show (match ordersOf net with
    | none => none
    | some orders =>
      reindexSpecGo (net.setNodeInputs n
          (stableSortBy (fun i => orders.getD i 0) nd.inputs)) fuel
        (eraseFirsts (all.erase n)
          (specEntries (stableSortBy (fun i => orders.getD i 0) nd.inputs)
            level))
        (qrest ++ specEntries
          (stableSortBy (fun i => orders.getD i 0) nd.inputs) level)
        (visited ++ [(n, level)]))
      = _
  rw [hord]

theorem reindexGo_eq_spec (fuel : Nat) :
    ∀ (net : Network) (all : List Nat) (queue visited : List (Nat × Nat)),
      (∀ nd ∈ net.nodes, nd.inputs.Nodup) →
      reindexGo net fuel all queue visited
        = reindexSpecGo net fuel all queue visited := by
  induction fuel with
  | zero => intro net all queue visited _; rfl
  | succ fuel ih =>
    intro net all queue visited hinv
    cases queue with
    | nil =>
      cases all with
      | nil => rfl
      | cons a rest =>
        show reindexGo net fuel rest [(a, 0)] visited
          = reindexSpecGo net fuel rest [(a, 0)] visited
        exact ih net rest [(a, 0)] visited hinv
    | cons p qrest =>
      obtain ⟨n, level⟩ := p
      cases hnd : net.nodes[n]? with
      | none =>
        rw [reindexGo_none net fuel all n level qrest visited hnd,
          reindexSpecGo_none net fuel all n level qrest visited hnd]
      | some nd =>
        by_cases hin : nd.inputs = []
        · rw [reindexGo_leaf net fuel all n level qrest visited nd hnd hin,
            reindexSpecGo_leaf net fuel all n level qrest visited nd hnd hin]
          exact ih net (all.erase n) qrest (visited ++ [(n, level)]) hinv
        · cases hord : ordersOf net with
          | none =>
            rw [reindexGo_noord net fuel all n level qrest visited nd
                hnd hin hord,
              reindexSpecGo_noord net fuel all n level qrest visited nd
                hnd hin hord]
          | some orders =>
            have hmem : nd ∈ net.nodes := by
              rcases List.getElem?_eq_some.mp hnd with ⟨hl, he⟩
              rw [← he]
              exact List.getElem_mem hl
            have hsnodup : (stableSortBy (fun i => orders.getD i 0)
                nd.inputs).Nodup :=
              stableSortBy_nodup _ _ (hinv nd hmem)
            have hinv2 := setNodeInputs_inputs_nodup net n
              (stableSortBy (fun i => orders.getD i 0) nd.inputs) hinv hsnodup
            rw [reindexGo_node net fuel all n level qrest visited nd orders
                hnd hin hord,
              reindexSpecGo_node net fuel all n level qrest visited nd orders
                hnd hin hord,
              enqueue_entries_eq _ hsnodup level]
            exact ih _ _ _ _ hinv2

/-- C2: on networks whose input lists are duplicate-free (the shape
every well-formed forest has), `reindex` is exactly the procedure the
spec describes: start at level 0 from the terminal outlet reached by
following `output` from node 0, process a FIFO queue of (node, level)
pairs, stably sort each dequeued node's inputs ascending by `order`,
enqueue every input — the one that is last after the sort at the same
level, all others one level deeper — and give every node the level it
was dequeued with. -/
theorem C2_reindex_matches_spec (net : Network)
    (hinv : ∀ nd ∈ net.nodes, nd.inputs.Nodup) :
    net.reindex = net.reindexSpec := by
  unfold Network.reindex Network.reindexSpec
  by_cases hemp : net.nodes.isEmpty
  · rw [if_pos hemp, if_pos hemp]
  · rw [if_neg hemp, if_neg hemp]
    cases chaseRoot net (net.nodes.length + 1) 0 with
    | none => rfl
    | some root =>
      show (match reindexGo net ((net.nodes.length + 2) * (net.nodes.length + 2))
          (List.range net.nodes.length) [(root, 0)] [] with
        | none => none
        | some nv => applyReindex nv.1 nv.2)
        = (match reindexSpecGo net
            ((net.nodes.length + 2) * (net.nodes.length + 2))
            (List.range net.nodes.length) [(root, 0)] [] with
          | none => none
          | some nv => applyReindex nv.1 nv.2)
      rw [reindexGo_eq_spec ((net.nodes.length + 2) * (net.nodes.length + 2))
        net (List.range net.nodes.length) [(root, 0)] [] hinv]

/-- C2 (witness): the coincidence instantiated on the ingested
four-node scenario network. -/
theorem C2_reindex_matches_spec_witness :
    (Network.fromLinesRaw ["A -> C", "B -> C", "C -> D"] noAttrFiles).reindex
      = (Network.fromLinesRaw
          ["A -> C", "B -> C", "C -> D"] noAttrFiles).reindexSpec :=
  C2_reindex_matches_spec _ (by decide)

/-! ### C8: the ASCII tree renderer -/

theorem pairs_flatten_length {β : Type} (f g : β → String) (l : List β) :
    ((l.map fun b => [f b, g b]).flatten).length = 2 * l.length := by
  induction l with
  | nil => rfl
  | cons b bs ih =>
    simp only [List.map_cons, List.flatten_cons, List.length_append,
      List.length_cons, ih]
    simp only [List.length_nil, List.length_cons]
    omega

theorem pairs_flatten_getElem {β : Type} (f g : β → String) (l : List β)
    (d : β) :
    ∀ j < l.length,
      ((l.map fun b => [f b, g b]).flatten)[2 * j]? = some (f (l.getD j d)) ∧
        ((l.map fun b => [f b, g b]).flatten)[2 * j + 1]?
          = some (g (l.getD j d)) := by
  induction l with
  | nil => intro j hj; simp at hj
  | cons b bs ih =>
    intro j hj
    cases j with
    | zero =>
      have hred : ((b :: bs).map fun x => [f x, g x]).flatten
          = f b :: g b :: (bs.map fun x => [f x, g x]).flatten := rfl
      rw [hred]
      constructor
      · show (f b :: g b :: (bs.map fun x => [f x, g x]).flatten)[0]?
          = some (f ((b :: bs).getD 0 d))
        rw [List.getElem?_cons_zero, List.getD_cons_zero]
      · show (f b :: g b :: (bs.map fun x => [f x, g x]).flatten)[0 + 1]?
          = some (g ((b :: bs).getD 0 d))
        rw [List.getElem?_cons_succ, List.getElem?_cons_zero,
          List.getD_cons_zero]
    | succ j =>
      have hj2 : j < bs.length := by
        simp only [List.length_cons] at hj
        omega
      have h1 : 2 * (j + 1) = 2 * j + 1 + 1 := by omega
      have hred : ((b :: bs).map fun x => [f x, g x]).flatten
          = f b :: g b :: (bs.map fun x => [f x, g x]).flatten := rfl
      rw [hred, h1]
      have hgd : (b :: bs).getD (j + 1) d = bs.getD j d := rfl
      rw [hgd]
      constructor
      · rw [List.getElem?_cons_succ, List.getElem?_cons_succ]
        exact (ih j hj2).1
      · rw [List.getElem?_cons_succ, List.getElem?_cons_succ]
        exact (ih j hj2).2

theorem pushInputs_inv (N : Nat) (inputs : List Nat) :
    ∀ (stack all : List Nat),
      all.Nodup → stack.Nodup → (∀ x ∈ stack, x ∉ all) →
      (∀ x ∈ all, x < N) → (∀ x ∈ stack, x < N) →
      ((pushInputs inputs stack all).1.length
          + (pushInputs inputs stack all).2.length
          = stack.length + all.length) ∧
        (pushInputs inputs stack all).2.Nodup ∧
        (pushInputs inputs stack all).1.Nodup ∧
        (∀ x ∈ (pushInputs inputs stack all).1,
          x ∉ (pushInputs inputs stack all).2) ∧
        (∀ x ∈ (pushInputs inputs stack all).2, x < N) ∧
        (∀ x ∈ (pushInputs inputs stack all).1, x < N) := by
  induction inputs with
  | nil =>
    intro stack all hna hns hdisj hba hbs
    exact ⟨rfl, hna, hns, hdisj, hba, hbs⟩
  | cons inp rest ih =>
    intro stack all hna hns hdisj hba hbs
    by_cases hm : inp ∈ all
    · have hstep : pushInputs (inp :: rest) stack all
          = pushInputs rest (inp :: stack) (all.erase inp) := by
        unfold pushInputs
        rw [List.foldl_cons]
        congr 1
        show (if inp ∈ all then (inp :: stack, all.erase inp) else (stack, all))
          = (inp :: stack, all.erase inp)
        rw [if_pos hm]
      have hin : inp ∉ stack := fun hin => hdisj inp hin hm
      have hlen : (all.erase inp).length + 1 = all.length := by
        rw [List.length_erase_of_mem hm]
        have : all.length ≠ 0 := by
          intro h0
          rw [List.length_eq_zero.mp h0] at hm
          simp at hm
        omega
      have h2 := ih (inp :: stack) (all.erase inp)
        (hna.erase inp)
        (List.nodup_cons.mpr ⟨hin, hns⟩)
        (by
          intro x hx
          rcases List.mem_cons.mp hx with he | hx2
          · subst he
            intro hmem
            exact ((List.Nodup.mem_erase_iff hna).mp hmem).1 rfl
          · intro hmem
            exact hdisj x hx2 (List.mem_of_mem_erase hmem))
        (fun x hx => hba x (List.mem_of_mem_erase hx))
        (by
          intro x hx
          rcases List.mem_cons.mp hx with he | hx2
          · subst he
            exact hba _ hm
          · exact hbs x hx2)
      rw [hstep]
      refine ⟨?_, h2.2.1, h2.2.2.1, h2.2.2.2.1, h2.2.2.2.2.1, h2.2.2.2.2.2⟩
      rw [h2.1]
      simp only [List.length_cons]
      omega
    · have hstep : pushInputs (inp :: rest) stack all
          = pushInputs rest stack all := by
        unfold pushInputs
        rw [List.foldl_cons]
        congr 1
        show (if inp ∈ all then (inp :: stack, all.erase inp) else (stack, all))
          = (stack, all)
        rw [if_neg hm]
      rw [hstep]
      exact ih stack all hna hns hdisj hba hbs

theorem graphGo_pop (net : Network) (tmpl : Template) (fuel : Nat)
    (all : List Nat) (s : Nat) (srest : List Nat) (acc : List GraphNode)
    (nd : Node) (text : String) (lv : Nat) (pnd : Node) (plv : Nat)
    (hnd : net.nodes[s]? = some nd)
    (htext : nd.format tmpl = some text)
    (hlv : (nd.attrs "level").bind NodeAttr.read_number = some lv)
    (hpnd : net.nodes[nd.output.getD nd.index]? = some pnd)
    (hplv : (pnd.attrs "level").bind NodeAttr.read_number = some plv) :
    graphGo net tmpl (fuel + 1) all (s :: srest) acc
      = graphGo net tmpl fuel
          (pushInputs nd.inputs srest all).2
          (pushInputs nd.inputs srest all).1
          (acc ++ [⟨lv, 0, lv != plv, text⟩]) := by
  show (match net.nodes[s]? with
    | none => none
    | some nd =>
      match nd.format tmpl with
      | none => none
      | some text =>
        match (nd.attrs "level").bind NodeAttr.read_number with
        | none => none
        | some level =>
          match net.nodes[nd.output.getD nd.index]? with
          | none => none
          | some pnd =>
            match (pnd.attrs "level").bind NodeAttr.read_number with
            | none => none
            | some parLevel =>
              graphGo net tmpl fuel
                (pushInputs nd.inputs srest all).2
                (pushInputs nd.inputs srest all).1
                (acc ++ [(⟨level, 0, level != parLevel, text⟩ : GraphNode)])) = _
  rw [hnd]
  show (match nd.format tmpl with
    | none => none
    | some text =>
      match (nd.attrs "level").bind NodeAttr.read_number with
      | none => none
      | some level =>
        match net.nodes[nd.output.getD nd.index]? with
        | none => none
        | some pnd =>
          match (pnd.attrs "level").bind NodeAttr.read_number with
          | none => none
          | some parLevel =>
            graphGo net tmpl fuel
              (pushInputs nd.inputs srest all).2
              (pushInputs nd.inputs srest all).1
              (acc ++ [(⟨level, 0, level != parLevel, text⟩ : GraphNode)])) = _
  rw [htext]
  show (match (nd.attrs "level").bind NodeAttr.read_number with
    | none => none
    | some level =>
      match net.nodes[nd.output.getD nd.index]? with
      | none => none
      | some pnd =>
        match (pnd.attrs "level").bind NodeAttr.read_number with
        | none => none
        | some parLevel =>
          graphGo net tmpl fuel
            (pushInputs nd.inputs srest all).2
            (pushInputs nd.inputs srest all).1
            (acc ++ [(⟨level, 0, level != parLevel, text⟩ : GraphNode)])) = _
  rw [hlv]
  show (match net.nodes[nd.output.getD nd.index]? with
    | none => none
    | some pnd =>
      match (pnd.attrs "level").bind NodeAttr.read_number with
      | none => none
      | some parLevel =>
        graphGo net tmpl fuel
          (pushInputs nd.inputs srest all).2
          (pushInputs nd.inputs srest all).1
          (acc ++ [(⟨lv, 0, lv != parLevel, text⟩ : GraphNode)])) = _
  rw [hpnd]
  show (match (pnd.attrs "level").bind NodeAttr.read_number with
    | none => none
    | some parLevel =>
      graphGo net tmpl fuel
        (pushInputs nd.inputs srest all).2
        (pushInputs nd.inputs srest all).1
        (acc ++ [(⟨lv, 0, lv != parLevel, text⟩ : GraphNode)])) = _
  rw [hplv]

theorem graphGo_ok (net : Network) (tmpl : Template)
    (hlv : ∀ nd ∈ net.nodes,
      ((nd.attrs "level").bind NodeAttr.read_number).isSome)
    (hfmt : ∀ nd ∈ net.nodes, (nd.format tmpl).isSome)
    (hpar : ∀ nd ∈ net.nodes, nd.output.getD nd.index < net.nodes.length) :
    ∀ (fuel : Nat) (all stack : List Nat) (acc : List GraphNode),
      all.Nodup → stack.Nodup → (∀ x ∈ stack, x ∉ all) →
      (∀ x ∈ all, x < net.nodes.length) →
      (∀ x ∈ stack, x < net.nodes.length) →
      (∀ g ∈ acc, GOk net tmpl g) →
      2 * (stack.length + all.length) + (if stack.isEmpty then 2 else 1)
        ≤ fuel →
      ∃ gs, graphGo net tmpl fuel all stack acc = some gs ∧
        gs.length = acc.length + stack.length + all.length ∧
        ∀ g ∈ gs, GOk net tmpl g := by
  intro fuel
  induction fuel with
  | zero =>
    intro all stack acc _ _ _ _ _ _ hf
    by_cases hse : stack.isEmpty <;> simp [hse] at hf
  | succ fuel ih =>
    intro all stack acc hna hns hdisj hba hbs hacc hf
    cases stack with
    | nil =>
      cases all with
      | nil => exact ⟨acc, rfl, by simp, hacc⟩
      | cons a rest =>
        have hna2 := List.nodup_cons.mp hna
        obtain ⟨gs, hg, hlen, hgok⟩ := ih rest [a] acc hna2.2
          (List.nodup_cons.mpr ⟨by simp, List.nodup_nil⟩)
          (by
            intro x hx
            rcases List.mem_cons.mp hx with he | hx2
            · subst he
              exact hna2.1
            · simp at hx2)
          (fun x hx => hba x (List.mem_cons_of_mem a hx))
          (by
            intro x hx
            rcases List.mem_cons.mp hx with he | hx2
            · subst he
              exact hba _ (List.mem_cons_self _ rest)
            · simp at hx2)
          hacc
          (by
            have hf2 : 2 * (0 + (rest.length + 1)) + 2 ≤ fuel + 1 := hf
            show 2 * (1 + rest.length) + 1 ≤ fuel
            omega)
        refine ⟨gs, hg, ?_, hgok⟩
        rw [hlen]
        simp only [List.length_cons, List.length_nil]
        omega
    | cons s srest =>
      have hslt : s < net.nodes.length := hbs s (List.mem_cons_self s srest)
      obtain ⟨nd, hnd⟩ : ∃ nd, net.nodes[s]? = some nd :=
        ⟨net.nodes[s], List.getElem?_eq_getElem hslt⟩
      have hmem : nd ∈ net.nodes := by
        rcases List.getElem?_eq_some.mp hnd with ⟨hl, he⟩
        rw [← he]
        exact List.getElem_mem hl
      obtain ⟨text, htext⟩ := Option.isSome_iff_exists.mp (hfmt nd hmem)
      obtain ⟨lv, hlv2⟩ := Option.isSome_iff_exists.mp (hlv nd hmem)
      have hplt : nd.output.getD nd.index < net.nodes.length := hpar nd hmem
      obtain ⟨pnd, hpnd⟩ : ∃ pnd, net.nodes[nd.output.getD nd.index]? = some pnd :=
        ⟨net.nodes[nd.output.getD nd.index], List.getElem?_eq_getElem hplt⟩
      have hpmem : pnd ∈ net.nodes := by
        rcases List.getElem?_eq_some.mp hpnd with ⟨hl, he⟩
        rw [← he]
        exact List.getElem_mem hl
      obtain ⟨plv, hplv2⟩ := Option.isSome_iff_exists.mp (hlv pnd hpmem)
      have hsrest := List.nodup_cons.mp hns
      have hpi := pushInputs_inv net.nodes.length nd.inputs srest all hna
        hsrest.2 (fun x hx => hdisj x (List.mem_cons_of_mem s hx)) hba
        (fun x hx => hbs x (List.mem_cons_of_mem s hx))
      have hGnew : GOk net tmpl ⟨lv, 0, lv != plv, text⟩ :=
        ⟨nd, hmem, lv, plv, hlv2, ⟨pnd, hpnd, hplv2⟩, htext, rfl, rfl, rfl⟩
      obtain ⟨gs, hg, hlen, hgok⟩ := ih (pushInputs nd.inputs srest all).2
        (pushInputs nd.inputs srest all).1
        (acc ++ [⟨lv, 0, lv != plv, text⟩])
        hpi.2.1 hpi.2.2.1 hpi.2.2.2.1 hpi.2.2.2.2.1 hpi.2.2.2.2.2
        (by
          intro g hg2
          rcases List.mem_append.mp hg2 with hg3 | hg3
          · exact hacc g hg3
          · rw [List.mem_singleton.mp hg3]
            exact hGnew)
        (by
          have hsum := hpi.1
          have hf2 : 2 * ((srest.length + 1) + all.length) + 1 ≤ fuel + 1 := hf
          by_cases hpe : (pushInputs nd.inputs srest all).1.isEmpty = true
          · rw [if_pos hpe]
            omega
          · rw [if_neg hpe]
            omega)
      refine ⟨gs, ?_, ?_, hgok⟩
      · rw [graphGo_pop net tmpl fuel all s srest acc nd text lv pnd plv
          hnd htext hlv2 hpnd hplv2]
        exact hg
      · rw [hlen]
        have hsum := hpi.1
        simp only [List.length_append, List.length_cons,
          List.length_singleton, List.length_nil]
        omega

/-- C8 (counterexample): on the four-node scenario network with the
name template, the node line of `A` (level 1, merge) is
`" +-*  A"`, whose glyph column is a space, a pipe replaced by `+`,
then `-*`; the claim's contract — `"| "` repeated `pre` times with the
last pipe replaced by `+`, right-aligned — predicts the width-4 column
`"+ -*"` instead, so the emitted line does not start with the claimed
glyphs. -/
theorem C8_counterexample_glyphs :
    ((Network.fromLines ["A -> C", "B -> C", "C -> D"] noAttrFiles).bind
        (fun net => net.graph_print [TemplatePart.ref "name"])).map
        (fun ls => ls[0]?)
      = some (some " +-*  A") ∧
      claimedGlyphs 1 true = "+ -*" ∧
      strStarts " +-*  A" (claimedGlyphs 1 true) = false := by
  refine ⟨by decide, by decide, by decide⟩

/-- C8 (amended): for any non-empty network whose nodes all carry a
readable `level`, whose output-or-self references stay in range and
whose labels render, `graph_print` succeeds and emits exactly two lines
per node (`2·n` in total): the collected records are one per node
position, each built from that node's `level`, the merge flag
`level ≠ level(output)` and the rendered label; line `2j` is the
glyph column — `" |"` repeated `pre` times, the last pipe dropped and
`"+"` appended on merge, then `"-*"`/`" *"` — left-aligned to the
widest column, two spaces, and the label; line `2j + 1` is the
connector line of pipes. -/
theorem C8_amended_graph_print (net : Network) (tmpl : Template)
    (hne : ¬net.nodes.isEmpty = true)
    (hlv : ∀ nd ∈ net.nodes,
      ((nd.attrs "level").bind NodeAttr.read_number).isSome)
    (hfmt : ∀ nd ∈ net.nodes, (nd.format tmpl).isSome)
    (hpar : ∀ nd ∈ net.nodes, nd.output.getD nd.index < net.nodes.length) :
    ∃ gs lines, net.graph_print tmpl = some lines ∧
      gs.length = net.nodes.length ∧
      lines = renderGraphNodes gs ∧
      lines.length = 2 * net.nodes.length ∧
      (∀ g ∈ gs, GOk net tmpl g) ∧
      (∀ j < net.nodes.length,
        lines[2 * j]?
          = some (padTo (gnodeGlyphs (gs.reverse.getD j ⟨0, 0, false, ""⟩))
              (((gs.reverse.map gnodeGlyphs).map fun t =>
                t.data.length).max?.getD 10)
            ++ "  " ++ (gs.reverse.getD j ⟨0, 0, false, ""⟩).text) ∧
        lines[2 * j + 1]?
          = some (connLine (gs.reverse.getD j ⟨0, 0, false, ""⟩))) := by
  have hlen0 : net.nodes.length ≠ 0 := by
    intro h0
    exact hne (List.isEmpty_iff.mpr (List.length_eq_zero.mp h0))
  obtain ⟨gs, hg, hglen, hgok⟩ := graphGo_ok net tmpl hlv hfmt hpar
    (2 * net.nodes.length + 2) (List.range' 1 (net.nodes.length - 1)) [0] []
    (List.nodup_range' 1 (net.nodes.length - 1) 1 Nat.one_pos)
    (List.nodup_cons.mpr ⟨by simp, List.nodup_nil⟩)
    (by
      intro x hx
      rcases List.mem_cons.mp hx with he | hx2
      · subst he
        intro hmem
        have := (List.mem_range'_1.mp hmem).1
        omega
      · simp at hx2)
    (by
      intro x hx
      have := List.mem_range'_1.mp hx
      omega)
    (by
      intro x hx
      rcases List.mem_cons.mp hx with he | hx2
      · subst he
        omega
      · simp at hx2)
    (by intro g hg; simp at hg)
    (by
      have hlr : (List.range' 1 (net.nodes.length - 1)).length
          = net.nodes.length - 1 := List.length_range' 1 1 (net.nodes.length - 1)
      show 2 * (1 + (List.range' 1 (net.nodes.length - 1)).length) + 1
        ≤ 2 * net.nodes.length + 2
      rw [hlr]
      omega)
  have hglen2 : gs.length = net.nodes.length := by
    rw [hglen]
    have hlr : (List.range' 1 (net.nodes.length - 1)).length
        = net.nodes.length - 1 := List.length_range' 1 1 (net.nodes.length - 1)
    rw [hlr]
    simp only [List.length_nil, List.length_cons]
    omega
  refine ⟨gs, renderGraphNodes gs, ?_, hglen2, rfl, ?_, hgok, ?_⟩
  · unfold Network.graph_print
    rw [if_neg hne, hg]
    rfl
  · show (((gs.reverse).map fun g =>
      [padTo (gnodeGlyphs g)
          (((gs.reverse.map gnodeGlyphs).map fun t => t.data.length).max?.getD 10)
        ++ "  " ++ g.text, connLine g]).flatten).length = 2 * net.nodes.length
    rw [pairs_flatten_length]
    rw [List.length_reverse, hglen2]
  · intro j hj
    have hj2 : j < gs.reverse.length := by
      rw [List.length_reverse, hglen2]
      exact hj
    exact pairs_flatten_getElem
      (fun g => padTo (gnodeGlyphs g)
        (((gs.reverse.map gnodeGlyphs).map fun t => t.data.length).max?.getD 10)
        ++ "  " ++ g.text)
      connLine gs.reverse ⟨0, 0, false, ""⟩ j hj2

/-- C8 (witness): the amended renderer contract instantiated on the
ingested four-node scenario network with the name template. -/
theorem C8_amended_graph_print_witness :
    ∃ gs lines,
      netScenario.graph_print [TemplatePart.ref "name"] = some lines ∧
      gs.length = netScenario.nodes.length ∧
      lines = renderGraphNodes gs ∧
      lines.length = 2 * netScenario.nodes.length ∧
      (∀ g ∈ gs, GOk netScenario [TemplatePart.ref "name"] g) ∧
      (∀ j < netScenario.nodes.length,
        lines[2 * j]?
          = some (padTo (gnodeGlyphs (gs.reverse.getD j ⟨0, 0, false, ""⟩))
              (((gs.reverse.map gnodeGlyphs).map fun t =>
                t.data.length).max?.getD 10)
            ++ "  " ++ (gs.reverse.getD j ⟨0, 0, false, ""⟩).text) ∧
        lines[2 * j + 1]?
          = some (connLine (gs.reverse.getD j ⟨0, 0, false, ""⟩))) :=
  C8_amended_graph_print netScenario [TemplatePart.ref "name"]
    (by decide) (by decide) (by decide) (by decide)

/-! ### C1: the `order` recurrence -/

theorem upSt_of_outStep (net : Network) (j i : Nat)
    (h : net.outStep j = some i) : UpSt net j i := by
  refine ⟨1, one_ne_zero, ?_⟩
  show (net.outStep j).bind (net.outIterN 0) = some i
  rw [h]
  rfl

theorem upSt_trans (net : Network) (a b c : Nat)
    (h1 : UpSt net a b) (h2 : UpSt net b c) : UpSt net a c := by
  obtain ⟨k1, hk1, hw1⟩ := h1
  obtain ⟨k2, hk2, hw2⟩ := h2
  refine ⟨k1 + k2, by omega, ?_⟩
  rw [outIterN_add, hw1]
  exact hw2

theorem outIterN_cycle (net : Network) (k i : Nat)
    (h : net.outIterN k i = some i) :
    ∀ m, net.outIterN (m * k) i = some i := by
  intro m
  induction m with
  | zero =>
    rw [Nat.zero_mul]
    rfl
  | succ m ih =>
    have hs : (m + 1) * k = m * k + k := by ring
    rw [hs, outIterN_add, ih]
    exact h

theorem upSt_irrefl (net : Network) (hacy : net.Acyclic) (i : Nat)
    (hi : i < net.nodes.length) : ¬ UpSt net i i := by
  rintro ⟨k, hk, hcyc⟩
  have hm := outIterN_cycle net k i hcyc net.nodes.length
  have hle : net.nodes.length ≤ net.nodes.length * k :=
    Nat.le_mul_of_pos_right _ (by omega)
  have hsplit : net.nodes.length * k
      = net.nodes.length + (net.nodes.length * k - net.nodes.length) := by
    omega
  rw [hsplit, outIterN_add, hacy i hi] at hm
  simp at hm

theorem inputs_not_upSt (net : Network) (hacy : net.Acyclic)
    (n x y : Nat) (hn : n < net.nodes.length)
    (hx : net.outStep x = some n) (hy : net.outStep y = some n) :
    ¬ UpSt net y x := by
  rintro ⟨k, hk, hky⟩
  cases k with
  | zero => exact hk rfl
  | succ k =>
    have hstep : net.outIterN k n = some x := by
      have hred : net.outIterN (k + 1) y
          = (net.outStep y).bind (net.outIterN k) := rfl
      rw [hred, hy] at hky
      exact hky
    cases k with
    | zero =>
      have hxn : n = x := by
        have hsx : some n = some x := hstep
        exact Option.some.inj hsx
      rw [← hxn] at hx
      exact upSt_irrefl net hacy n hn (upSt_of_outStep net n n hx)
    | succ k2 =>
      have h1 : UpSt net n x := ⟨k2 + 1, Nat.succ_ne_zero k2, hstep⟩
      have h2 : UpSt net x n := upSt_of_outStep net x n hx
      exact upSt_irrefl net hacy n hn (upSt_trans net n x n h1 h2)

theorem not_upSt_parent (net : Network) (hacy : net.Acyclic)
    (n x : Nat) (hn : n < net.nodes.length)
    (hx : net.outStep x = some n) : ¬ UpSt net n x :=
  fun h => upSt_irrefl net hacy n hn
    (upSt_trans net n x n h (upSt_of_outStep net x n hx))

theorem not_upSt_of_out (net : Network) (x n y : Nat)
    (hx : net.outStep x = some n) (hyn : ¬ UpSt net y n) :
    ¬ UpSt net y x :=
  fun h => hyn (upSt_trans net y x n h (upSt_of_outStep net x n hx))

theorem nodeAt_of_getElem (net : Network) (i : Nat) (nd : Node)
    (h : net.nodes[i]? = some nd) : net.nodeAt i = nd := by
  unfold Network.nodeAt
  rw [List.getD_eq_getElem?_getD, h]
  rfl

theorem setNodeAttr_getElem_ne (net : Network) (i : Nat) (k : String)
    (v : NodeAttr) (j : Nat) (hne : i ≠ j) :
    (net.setNodeAttr i k v).nodes[j]? = net.nodes[j]? := by
  cases h : net.nodes[i]? with
  | none => simp [Network.setNodeAttr, h]
  | some nd => simp [Network.setNodeAttr, h, List.getElem?_set_ne hne]

theorem setNodeAttr_getElem_self (net : Network) (i : Nat) (k : String)
    (v : NodeAttr) (nd : Node) (h : net.nodes[i]? = some nd) :
    (net.setNodeAttr i k v).nodes[i]? = some (nd.set_attr k v) := by
  have hi : i < net.nodes.length := (List.getElem?_eq_some.mp h).1
  simp [Network.setNodeAttr, h, List.getElem?_set_self hi]

theorem ordAt_setNodeAttr_ne (net : Network) (i : Nat) (k : String)
    (v : NodeAttr) (j : Nat) (hne : j ≠ i) :
    (net.setNodeAttr i k v).ordAt j = net.ordAt j := by
  unfold Network.ordAt
  rw [setNodeAttr_getElem_ne net i k v j (Ne.symm hne)]

theorem ordAt_setNodeAttr_self (net : Network) (i : Nat) (v : Nat)
    (nd : Node) (h : net.nodes[i]? = some nd) :
    (net.setNodeAttr i "order" (NodeAttr.number v)).ordAt i = some v := by
  unfold Network.ordAt
  rw [setNodeAttr_getElem_self net i "order" (NodeAttr.number v) nd h]
  show ((if "order" = "order" then some (NodeAttr.number v)
    else nd.attrs "order")).bind NodeAttr.read_number = some v
  rw [if_pos rfl]
  rfl

theorem sameShape_rfl (net : Network) : SameShape net net :=
  ⟨rfl, rfl, fun _ => rfl⟩

theorem sameShape_trans (a b c : Network) (h1 : SameShape a b)
    (h2 : SameShape b c) : SameShape a c :=
  ⟨h1.1.trans h2.1, h1.2.1.trans h2.2.1, fun i => (h1.2.2 i).trans (h2.2.2 i)⟩

theorem setNodeAttr_sameShape (net : Network) (i : Nat) (k : String)
    (v : NodeAttr) : SameShape (net.setNodeAttr i k v) net := by
  refine ⟨rfl, setNodeAttr_length net i k v, ?_⟩
  intro j
  by_cases hij : i = j
  · subst hij
    cases h : net.nodes[i]? with
    | none => simp [Network.setNodeAttr, h]
    | some nd =>
      rw [setNodeAttr_getElem_self net i k v nd h]
      rfl
  · rw [setNodeAttr_getElem_ne net i k v j hij]

theorem sameShape_getElem (a b : Network) (h : SameShape a b) (i : Nat)
    (nd : Node) (hnd : a.nodes[i]? = some nd) :
    ∃ nd0, b.nodes[i]? = some nd0 ∧ nd.index = nd0.index ∧
      nd.name = nd0.name ∧ nd.inputs = nd0.inputs ∧
      nd.output = nd0.output := by
  have hp := h.2.2 i
  rw [hnd] at hp
  cases hb : b.nodes[i]? with
  | none =>
    rw [hb] at hp
    exact absurd hp (by simp)
  | some nd0 =>
    rw [hb] at hp
    have hp2 : (nd.index, nd.name, nd.inputs, nd.output)
        = (nd0.index, nd0.name, nd0.inputs, nd0.output) := Option.some.inj hp
    exact ⟨nd0, rfl, congrArg (fun p => p.1) hp2,
      congrArg (fun p => p.2.1) hp2, congrArg (fun p => p.2.2.1) hp2,
      congrArg (fun p => p.2.2.2) hp2⟩

theorem mapM_option_congr {α β : Type} (f g : α → Option β) (l : List α)
    (h : ∀ x ∈ l, f x = g x) : l.mapM f = l.mapM g := by
  induction l with
  | nil => rw [List.mapM_nil, List.mapM_nil]
  | cons a rest ih =>
    rw [List.mapM_cons, List.mapM_cons, h a (List.mem_cons_self a rest),
      ih (fun x hx => h x (List.mem_cons_of_mem a hx))]

theorem mapM_option_isSome {α β : Type} (f : α → Option β) (l : List α)
    (h : ∀ x ∈ l, (f x).isSome) : ∃ vals, l.mapM f = some vals := by
  induction l with
  | nil => exact ⟨[], by rw [List.mapM_nil]; rfl⟩
  | cons a rest ih =>
    obtain ⟨v, hv⟩ :=
      Option.isSome_iff_exists.mp (h a (List.mem_cons_self a rest))
    obtain ⟨vals, hvals⟩ := ih (fun x hx => h x (List.mem_cons_of_mem a hx))
    refine ⟨v :: vals, ?_⟩
    rw [List.mapM_cons, hv, hvals]
    rfl

theorem orderRec_preserved (net : Network) (n v i : Nat) (hne : i ≠ n)
    (h : OrderRec net i)
    (hinp : ∀ nd, net.nodes[i]? = some nd → ∀ j ∈ nd.inputs, j ≠ n) :
    OrderRec (net.setNodeAttr n "order" (NodeAttr.number v)) i := by
  obtain ⟨nd, vals, hnd, hmap, hord⟩ := h
  refine ⟨nd, vals, ?_, ?_, ?_⟩
  · rw [setNodeAttr_getElem_ne net n "order" (NodeAttr.number v) i
      (fun he => hne he.symm)]
    exact hnd
  · rw [mapM_option_congr
      ((net.setNodeAttr n "order" (NodeAttr.number v)).ordAt) net.ordAt
      nd.inputs (fun j hj =>
        ordAt_setNodeAttr_ne net n "order" (NodeAttr.number v) j
          (hinp nd hnd j hj))]
    exact hmap
  · rw [ordAt_setNodeAttr_ne net n "order" (NodeAttr.number v) i hne]
    exact hord

theorem orderGo_pop_leaf (net : Network) (fuel : Nat) (all : List Nat)
    (n : Nat) (qrest : List Nat) (nd : Node)
    (hnd : net.nodes[n]? = some nd) (hleaf : nd.inputs = []) :
    orderGo net (fuel + 1) all (n :: qrest)
      = orderGo (net.setNodeAttr n "order" (NodeAttr.number 1))
          fuel all qrest := by
  show (match net.nodes[n]? with
    | none => none
    | some nd =>
      if nd.inputs = [] then
        orderGo (net.setNodeAttr n "order" (NodeAttr.number 1))
          fuel all qrest
      else
        if nd.inputs.filter (· ∈ all) = [] then
          match nd.inputs.mapM net.ordAt with
          | none => none
          | some vals =>
            orderGo (net.setNodeAttr n "order"
              (NodeAttr.number (vals.sum + 1))) fuel all qrest
        else
          orderGo net fuel
            (all.filter (· ∉ nd.inputs.filter (· ∈ all)))
            ((nd.inputs.filter (· ∈ all)).reverse ++ n :: qrest)) = _
  rw [hnd]
  show (if nd.inputs = [] then
      orderGo (net.setNodeAttr n "order" (NodeAttr.number 1))
        fuel all qrest
    else
      if nd.inputs.filter (· ∈ all) = [] then
        match nd.inputs.mapM net.ordAt with
        | none => none
        | some vals =>
          orderGo (net.setNodeAttr n "order"
            (NodeAttr.number (vals.sum + 1))) fuel all qrest
      else
        orderGo net fuel
          (all.filter (· ∉ nd.inputs.filter (· ∈ all)))
          ((nd.inputs.filter (· ∈ all)).reverse ++ n :: qrest)) = _
  rw [if_pos hleaf]

theorem orderGo_pop_calcd (net : Network) (fuel : Nat) (all : List Nat)
    (n : Nat) (qrest : List Nat) (nd : Node) (vals : List Nat)
    (hnd : net.nodes[n]? = some nd) (hne : ¬ nd.inputs = [])
    (hunc : nd.inputs.filter (· ∈ all) = [])
    (hmap : nd.inputs.mapM net.ordAt = some vals) :
    orderGo net (fuel + 1) all (n :: qrest)
      = orderGo (net.setNodeAttr n "order"
          (NodeAttr.number (vals.sum + 1))) fuel all qrest := by
  show (match net.nodes[n]? with
    | none => none
    | some nd =>
      if nd.inputs = [] then
        orderGo (net.setNodeAttr n "order" (NodeAttr.number 1))
          fuel all qrest
      else
        if nd.inputs.filter (· ∈ all) = [] then
          match nd.inputs.mapM net.ordAt with
          | none => none
          | some vals =>
            orderGo (net.setNodeAttr n "order"
              (NodeAttr.number (vals.sum + 1))) fuel all qrest
        else
          orderGo net fuel
            (all.filter (· ∉ nd.inputs.filter (· ∈ all)))
            ((nd.inputs.filter (· ∈ all)).reverse ++ n :: qrest)) = _
  rw [hnd]
  show (if nd.inputs = [] then
      orderGo (net.setNodeAttr n "order" (NodeAttr.number 1))
        fuel all qrest
    else
      if nd.inputs.filter (· ∈ all) = [] then
        match nd.inputs.mapM net.ordAt with
        | none => none
        | some vals =>
          orderGo (net.setNodeAttr n "order"
            (NodeAttr.number (vals.sum + 1))) fuel all qrest
      else
        orderGo net fuel
          (all.filter (· ∉ nd.inputs.filter (· ∈ all)))
          ((nd.inputs.filter (· ∈ all)).reverse ++ n :: qrest)) = _
  rw [if_neg hne]
  show (if nd.inputs.filter (· ∈ all) = [] then
      match nd.inputs.mapM net.ordAt with
      | none => none
      | some vals =>
        orderGo (net.setNodeAttr n "order"
          (NodeAttr.number (vals.sum + 1))) fuel all qrest
    else
      orderGo net fuel
        (all.filter (· ∉ nd.inputs.filter (· ∈ all)))
        ((nd.inputs.filter (· ∈ all)).reverse ++ n :: qrest)) = _
  rw [if_pos hunc]
  show (match nd.inputs.mapM net.ordAt with
    | none => none
    | some vals =>
      orderGo (net.setNodeAttr n "order"
        (NodeAttr.number (vals.sum + 1))) fuel all qrest) = _
  rw [hmap]

theorem orderGo_push (net : Network) (fuel : Nat) (all : List Nat)
    (n : Nat) (qrest : List Nat) (nd : Node)
    (hnd : net.nodes[n]? = some nd) (hne : ¬ nd.inputs = [])
    (hunc : ¬ nd.inputs.filter (· ∈ all) = []) :
    orderGo net (fuel + 1) all (n :: qrest)
      = orderGo net fuel
          (all.filter (· ∉ nd.inputs.filter (· ∈ all)))
          ((nd.inputs.filter (· ∈ all)).reverse ++ n :: qrest) := by
  show (match net.nodes[n]? with
    | none => none
    | some nd =>
      if nd.inputs = [] then
        orderGo (net.setNodeAttr n "order" (NodeAttr.number 1))
          fuel all qrest
      else
        if nd.inputs.filter (· ∈ all) = [] then
          match nd.inputs.mapM net.ordAt with
          | none => none
          | some vals =>
            orderGo (net.setNodeAttr n "order"
              (NodeAttr.number (vals.sum + 1))) fuel all qrest
        else
          orderGo net fuel
            (all.filter (· ∉ nd.inputs.filter (· ∈ all)))
            ((nd.inputs.filter (· ∈ all)).reverse ++ n :: qrest)) = _
  rw [hnd]
  show (if nd.inputs = [] then
      orderGo (net.setNodeAttr n "order" (NodeAttr.number 1))
        fuel all qrest
    else
      if nd.inputs.filter (· ∈ all) = [] then
        match nd.inputs.mapM net.ordAt with
        | none => none
        | some vals =>
          orderGo (net.setNodeAttr n "order"
            (NodeAttr.number (vals.sum + 1))) fuel all qrest
      else
        orderGo net fuel
          (all.filter (· ∉ nd.inputs.filter (· ∈ all)))
          ((nd.inputs.filter (· ∈ all)).reverse ++ n :: qrest)) = _
  rw [if_neg hne]
  show (if nd.inputs.filter (· ∈ all) = [] then
      match nd.inputs.mapM net.ordAt with
      | none => none
      | some vals =>
        orderGo (net.setNodeAttr n "order"
          (NodeAttr.number (vals.sum + 1))) fuel all qrest
    else
      orderGo net fuel
        (all.filter (· ∉ nd.inputs.filter (· ∈ all)))
        ((nd.inputs.filter (· ∈ all)).reverse ++ n :: qrest)) = _
  rw [if_neg hunc]

theorem settled_preserved (net0 net : Network) (hsh : SameShape net net0)
    (all qrest : List Nat) (n v : Nat)
    (hinv : ∀ i < net0.nodes.length, i ∉ all → i ∉ n :: qrest →
      OrderRec net i ∧
        ∀ j ∈ (net0.nodeAt i).inputs, j ∉ all ∧ j ∉ n :: qrest)
    (i : Nat) (hi : i < net0.nodes.length) (hine : i ≠ n)
    (hia : i ∉ all) (hiq : i ∉ qrest) :
    OrderRec (net.setNodeAttr n "order" (NodeAttr.number v)) i ∧
      ∀ j ∈ (net0.nodeAt i).inputs, j ∉ all ∧ j ∉ qrest := by
  have hicons : i ∉ n :: qrest := by
    intro hm
    rcases List.mem_cons.mp hm with he | hm2
    · exact hine he
    · exact hiq hm2
  have h0 := hinv i hi hia hicons
  constructor
  · refine orderRec_preserved net n v i hine h0.1 ?_
    intro ndI hndI j hj
    obtain ⟨ndI0, hndI0, -, -, hinpI, -⟩ :=
      sameShape_getElem net net0 hsh i ndI hndI
    have hj0 : j ∈ (net0.nodeAt i).inputs := by
      rw [nodeAt_of_getElem net0 i ndI0 hndI0, ← hinpI]
      exact hj
    have hjq := (h0.2 j hj0).2
    intro hjn
    exact hjq (by rw [hjn]; exact List.mem_cons_self n qrest)
  · intro j hj
    have hj2 := h0.2 j hj
    exact ⟨hj2.1, fun hm => hj2.2 (List.mem_cons_of_mem n hm)⟩

theorem orderGo_correct (net0 : Network) (hwf : WellFormed net0)
    (hacy : net0.Acyclic) :
    ∀ fuel (net : Network) (all queue : List Nat),
      SameShape net net0 →
      (∀ x ∈ all, x < net0.nodes.length) → all.Nodup →
      (∀ x ∈ queue, x < net0.nodes.length) → queue.Nodup →
      (∀ x ∈ queue, x ∉ all) →
      queue.Pairwise (fun a b => ¬ UpSt net0 b a) →
      (∀ i < net0.nodes.length, i ∉ all → i ∉ queue →
        OrderRec net i ∧
          ∀ j ∈ (net0.nodeAt i).inputs, j ∉ all ∧ j ∉ queue) →
      2 * all.length + queue.length < fuel →
      ∃ net2, orderGo net fuel all queue = some net2 ∧
        SameShape net2 net0 ∧ ∀ i < net0.nodes.length, OrderRec net2 i := by
  intro fuel
  induction fuel with
  | zero =>
    intro net all queue _ _ _ _ _ _ _ _ hf
    omega
  | succ fuel ih =>
    intro net all queue hsh hba hna hbq hnq hdisj hpw hinv hf
    cases queue with
    | nil =>
      cases all with
      | nil =>
        refine ⟨net, rfl, hsh, ?_⟩
        intro i hi
        exact (hinv i hi (List.not_mem_nil i) (List.not_mem_nil i)).1
      | cons a rest =>
        have hna2 := List.nodup_cons.mp hna
        have hgoal := ih net rest [a] hsh
          (fun x hx => hba x (List.mem_cons_of_mem a hx)) hna2.2
          (by
            intro x hx
            rw [List.mem_singleton.mp hx]
            exact hba a (List.mem_cons_self a rest))
          (List.nodup_cons.mpr ⟨List.not_mem_nil a, List.nodup_nil⟩)
          (by
            intro x hx
            rw [List.mem_singleton.mp hx]
            exact hna2.1)
          (List.pairwise_cons.mpr
            ⟨fun b hb => absurd hb (List.not_mem_nil b), List.Pairwise.nil⟩)
          (by
            intro i hi hir hia
            have hina : i ∉ a :: rest := by
              intro hmem
              rcases List.mem_cons.mp hmem with he | hm
              · exact hia (by rw [he]; exact List.mem_cons_self a [])
              · exact hir hm
            have h0 := hinv i hi hina (List.not_mem_nil i)
            refine ⟨h0.1, ?_⟩
            intro j hj
            have hj0 := h0.2 j hj
            refine ⟨fun hm => hj0.1 (List.mem_cons_of_mem a hm), ?_⟩
            intro hm
            exact hj0.1
              (by rw [List.mem_singleton.mp hm]; exact List.mem_cons_self a rest))
          (by
            have hf2 : 2 * (rest.length + 1) + 0 < fuel + 1 := hf
            show 2 * rest.length + 1 < fuel
            omega)
        exact hgoal
    | cons n qrest =>
      have hn : n < net0.nodes.length := hbq n (List.mem_cons_self n qrest)
      have hlen : net.nodes.length = net0.nodes.length := hsh.2.1
      obtain ⟨nd, hnd⟩ : ∃ nd, net.nodes[n]? = some nd := by
        have hne2 : n < net.nodes.length := by omega
        exact ⟨net.nodes.get ⟨n, hne2⟩, List.getElem?_eq_getElem hne2⟩
      obtain ⟨nd0, hnd0, -, -, hinpEq, -⟩ :=
        sameShape_getElem net net0 hsh n nd hnd
      have hnd0n : net0.nodeAt n = nd0 := nodeAt_of_getElem net0 n nd0 hnd0
      have hbidir : ∀ j ∈ nd.inputs, net0.outStep j = some n := by
        intro j hj
        rw [hinpEq] at hj
        exact hwf.bidir n hn j (by rw [hnd0n]; exact hj)
      have hinplt : ∀ j ∈ nd.inputs, j < net0.nodes.length := by
        intro j hj
        rw [hinpEq] at hj
        exact hwf.inputs_lt n hn j (by rw [hnd0n]; exact hj)
      have hinpnd : nd.inputs.Nodup := by
        rw [hinpEq]
        have hn2 := hwf.inputs_nodup n hn
        rw [hnd0n] at hn2
        exact hn2
      have hpw2 := List.pairwise_cons.mp hpw
      have hnqr := List.nodup_cons.mp hnq
      by_cases hleaf : nd.inputs = []
      · have hgoal := ih (net.setNodeAttr n "order" (NodeAttr.number 1))
          all qrest
          (sameShape_trans _ net net0
            (setNodeAttr_sameShape net n "order" (NodeAttr.number 1)) hsh)
          hba hna
          (fun x hx => hbq x (List.mem_cons_of_mem n hx)) hnqr.2
          (fun x hx => hdisj x (List.mem_cons_of_mem n hx)) hpw2.2
          (by
            intro i hi hia hiq
            by_cases hin : i = n
            · subst hin
              refine ⟨⟨nd.set_attr "order" (NodeAttr.number 1), [],
                setNodeAttr_getElem_self net i "order"
                  (NodeAttr.number 1) nd hnd, ?_, ?_⟩, ?_⟩
              · show nd.inputs.mapM
                  (net.setNodeAttr i "order" (NodeAttr.number 1)).ordAt
                  = some []
                rw [hleaf, List.mapM_nil]
                rfl
              · exact ordAt_setNodeAttr_self net i 1 nd hnd
              · intro j hj
                rw [hnd0n, ← hinpEq, hleaf] at hj
                exact absurd hj (List.not_mem_nil j)
            · exact settled_preserved net0 net hsh all qrest n 1 hinv
                i hi hin hia hiq)
          (by
            have hf2 : 2 * all.length + (qrest.length + 1) < fuel + 1 := hf
            omega)
        rw [orderGo_pop_leaf net fuel all n qrest nd hnd hleaf]
        exact hgoal
      · by_cases hunc : nd.inputs.filter (· ∈ all) = []
        · have hsettled : ∀ j ∈ nd.inputs, j ∉ all ∧ j ∉ n :: qrest := by
            intro j hj
            have hjall : j ∉ all := by
              intro hm
              have hjf : j ∈ nd.inputs.filter (· ∈ all) :=
                List.mem_filter.mpr ⟨hj, by simpa using hm⟩
              rw [hunc] at hjf
              exact absurd hjf (List.not_mem_nil j)
            have hjn : j ≠ n := by
              intro he
              have hsn := hbidir j hj
              rw [he] at hsn
              exact upSt_irrefl net0 hacy n hn (upSt_of_outStep net0 n n hsn)
            have hjq : j ∉ qrest := by
              intro hm
              exact (hpw2.1 j hm) (upSt_of_outStep net0 j n (hbidir j hj))
            refine ⟨hjall, ?_⟩
            intro hm
            rcases List.mem_cons.mp hm with he | hm2
            · exact hjn he
            · exact hjq hm2
          have hords : ∀ j ∈ nd.inputs, (net.ordAt j).isSome := by
            intro j hj
            have hjset := hsettled j hj
            have h0 := hinv j (hinplt j hj) hjset.1 hjset.2
            obtain ⟨ndJ, valsJ, -, -, hordJ⟩ := h0.1
            rw [hordJ]
            rfl
          obtain ⟨vals, hvals⟩ :=
            mapM_option_isSome net.ordAt nd.inputs hords
          have hgoal := ih (net.setNodeAttr n "order"
              (NodeAttr.number (vals.sum + 1))) all qrest
            (sameShape_trans _ net net0
              (setNodeAttr_sameShape net n "order"
                (NodeAttr.number (vals.sum + 1))) hsh)
            hba hna
            (fun x hx => hbq x (List.mem_cons_of_mem n hx)) hnqr.2
            (fun x hx => hdisj x (List.mem_cons_of_mem n hx)) hpw2.2
            (by
              intro i hi hia hiq
              by_cases hin : i = n
              · subst hin
                refine ⟨⟨nd.set_attr "order"
                  (NodeAttr.number (vals.sum + 1)), vals,
                  setNodeAttr_getElem_self net i "order"
                    (NodeAttr.number (vals.sum + 1)) nd hnd, ?_, ?_⟩, ?_⟩
                · show nd.inputs.mapM
                    (net.setNodeAttr i "order"
                      (NodeAttr.number (vals.sum + 1))).ordAt = some vals
                  rw [mapM_option_congr
                    ((net.setNodeAttr i "order"
                      (NodeAttr.number (vals.sum + 1))).ordAt)
                    net.ordAt nd.inputs
                    (fun j hj =>
                      ordAt_setNodeAttr_ne net i "order"
                        (NodeAttr.number (vals.sum + 1)) j
                        (fun he => (hsettled j hj).2
                          (by rw [he]; exact List.mem_cons_self i qrest)))]
                  exact hvals
                · exact ordAt_setNodeAttr_self net i (vals.sum + 1) nd hnd
                · intro j hj
                  rw [hnd0n, ← hinpEq] at hj
                  have hjset := hsettled j hj
                  exact ⟨hjset.1,
                    fun hm => hjset.2 (List.mem_cons_of_mem i hm)⟩
              · exact settled_preserved net0 net hsh all qrest n
                  (vals.sum + 1) hinv i hi hin hia hiq)
            (by
              have hf2 : 2 * all.length + (qrest.length + 1) < fuel + 1 := hf
              omega)
          rw [orderGo_pop_calcd net fuel all n qrest nd vals hnd hleaf
            hunc hvals]
          exact hgoal
        · have hFnd : (nd.inputs.filter (· ∈ all)).Nodup :=
            hinpnd.filter _
          have hFsub : ∀ x ∈ nd.inputs.filter (· ∈ all), x ∈ nd.inputs :=
            fun x hx => (List.mem_filter.mp hx).1
          have hFall : ∀ x ∈ nd.inputs.filter (· ∈ all), x ∈ all := by
            intro x hx
            have hd := (List.mem_filter.mp hx).2
            simpa using hd
          have hgoal := ih net
            (all.filter (· ∉ nd.inputs.filter (· ∈ all)))
            ((nd.inputs.filter (· ∈ all)).reverse ++ n :: qrest)
            hsh
            (fun x hx => hba x (List.mem_filter.mp hx).1)
            (hna.filter _)
            (by
              intro x hx
              rcases List.mem_append.mp hx with h1 | h1
              · exact hinplt x (hFsub x (List.mem_reverse.mp h1))
              · exact hbq x h1)
            (List.nodup_append.mpr ⟨List.nodup_reverse.mpr hFnd, hnq, by
              intro x hx hm
              exact hdisj x hm (hFall x (List.mem_reverse.mp hx))⟩)
            (by
              intro x hx
              rcases List.mem_append.mp hx with h1 | h1
              · intro hm
                have hd2 := (List.mem_filter.mp hm).2
                simp only [decide_eq_true_eq] at hd2
                exact hd2 (List.mem_reverse.mp h1)
              · intro hm
                exact hdisj x h1 ((List.mem_filter.mp hm).1))
            (List.pairwise_append.mpr ⟨
              List.pairwise_of_forall_mem_list (by
                intro a ha b hb
                exact inputs_not_upSt net0 hacy n a b hn
                  (hbidir a (hFsub a (List.mem_reverse.mp ha)))
                  (hbidir b (hFsub b (List.mem_reverse.mp hb)))),
              hpw, by
              intro a ha b hb
              have haF := hFsub a (List.mem_reverse.mp ha)
              rcases List.mem_cons.mp hb with he | hbq2
              · rw [he]
                exact not_upSt_parent net0 hacy n a hn (hbidir a haF)
              · exact not_upSt_of_out net0 a n b (hbidir a haF)
                  (hpw2.1 b hbq2)⟩)
            (by
              intro i hi hia2 hiq2
              have hiF : i ∉ nd.inputs.filter (· ∈ all) := by
                intro hm
                exact hiq2
                  (List.mem_append.mpr (Or.inl (List.mem_reverse.mpr hm)))
              have hia : i ∉ all := by
                intro hm
                exact hia2 (List.mem_filter.mpr
                  ⟨hm, by simp only [decide_eq_true_eq]; exact hiF⟩)
              have hicons : i ∉ n :: qrest := by
                intro hm
                exact hiq2 (List.mem_append.mpr (Or.inr hm))
              have h0 := hinv i hi hia hicons
              refine ⟨h0.1, ?_⟩
              intro j hj
              have hj2 := h0.2 j hj
              refine ⟨?_, ?_⟩
              · intro hm
                exact hj2.1 ((List.mem_filter.mp hm).1)
              · intro hm
                rcases List.mem_append.mp hm with h1 | h1
                · exact hj2.1 (hFall j (List.mem_reverse.mp h1))
                · exact hj2.2 h1)
            (by
              have happnd : ((all.filter
                  (· ∉ nd.inputs.filter (· ∈ all)))
                  ++ nd.inputs.filter (· ∈ all)).Nodup :=
                List.nodup_append.mpr ⟨hna.filter _, hFnd, by
                  intro x hx hm
                  have hd2 := (List.mem_filter.mp hx).2
                  simp only [decide_eq_true_eq] at hd2
                  exact hd2 hm⟩
              have hsub2 : ((all.filter
                  (· ∉ nd.inputs.filter (· ∈ all)))
                  ++ nd.inputs.filter (· ∈ all)) ⊆ all := by
                intro x hx
                rcases List.mem_append.mp hx with h1 | h1
                · exact (List.mem_filter.mp h1).1
                · exact hFall x h1
              have hlenle :=
                (List.subperm_of_subset happnd hsub2).length_le
              rw [List.length_append] at hlenle
              have hF1 : (nd.inputs.filter (· ∈ all)).length ≠ 0 :=
                fun h0 => hunc (List.length_eq_zero.mp h0)
              have hf2 : 2 * all.length + (qrest.length + 1) < fuel + 1 := hf
              rw [List.length_append, List.length_reverse, List.length_cons]
              omega)
          rw [orderGo_push net fuel all n qrest nd hnd hleaf hunc]
          exact hgoal

/-- C1: on every well-formed acyclic network, `order` terminates and
annotates every node with an `order` attribute satisfying the claimed
recurrence: a node with no inputs reads `order = 1`, and every node
reads `order = 1 + sum(order(i) for i in inputs)`; all structural node
fields are left untouched. -/
theorem C1_order_recurrence (net : Network) (hwf : WellFormed net)
    (hacy : net.Acyclic) :
    ∃ net2, net.order = some net2 ∧
      net2.nodes.length = net.nodes.length ∧
      (∀ i : Nat, (net2.nodes[i]?).map
          (fun nd => (nd.index, nd.name, nd.inputs, nd.output))
        = (net.nodes[i]?).map
          (fun nd => (nd.index, nd.name, nd.inputs, nd.output))) ∧
      ∀ i < net.nodes.length, OrderRec net2 i := by
  obtain ⟨net2, hrun, hsh, hrec⟩ := orderGo_correct net hwf hacy
    (2 * net.nodes.length + 1) net (List.range net.nodes.length) []
    (sameShape_rfl net)
    (fun x hx => List.mem_range.mp hx) (List.nodup_range _)
    (fun x hx => absurd hx (List.not_mem_nil x)) List.nodup_nil
    (fun x hx => absurd hx (List.not_mem_nil x)) List.Pairwise.nil
    (by
      intro i hi hir _
      exact absurd (List.mem_range.mpr hi) hir)
    (by
      simp only [List.length_range, List.length_nil]
      omega)
  exact ⟨net2, hrun, hsh.2.1, hsh.2.2, hrec⟩

/-- C1 (witness): the order recurrence instantiated on the ingested
four-node scenario network, whose raw parse is well-formed and
acyclic. -/
theorem C1_order_recurrence_witness :
    ∃ net2, (Network.fromLinesRaw ["A -> C", "B -> C", "C -> D"]
        noAttrFiles).order = some net2 ∧
      net2.nodes.length = (Network.fromLinesRaw ["A -> C", "B -> C", "C -> D"]
        noAttrFiles).nodes.length ∧
      (∀ i : Nat, (net2.nodes[i]?).map
          (fun nd => (nd.index, nd.name, nd.inputs, nd.output))
        = ((Network.fromLinesRaw ["A -> C", "B -> C", "C -> D"]
            noAttrFiles).nodes[i]?).map
          (fun nd => (nd.index, nd.name, nd.inputs, nd.output))) ∧
      ∀ i < (Network.fromLinesRaw ["A -> C", "B -> C", "C -> D"]
        noAttrFiles).nodes.length,
        OrderRec net2 i :=
  C1_order_recurrence
    (Network.fromLinesRaw ["A -> C", "B -> C", "C -> D"] noAttrFiles)
    ⟨by decide, by decide, by decide⟩ (by decide)

end Nadi
